import Mathlib

/-!
Verification of dummy-load-app: jitter, clamping, page touching and the CPU duty-cycle
scheduler.

A shallow embedding of `dummy-load-app/main.go`.

Modelling conventions.

* `float64` is the type `F64`: NaN, the two infinities, and the finite values, which carry
  their exact rational value. Every arithmetic operation computes the exact result and
  rounds it to the nearest float64 (53 significant bits, ties to even, subnormals below
  `2 ^ -1022`, overflow to infinity from `2 ^ 1024` on), one rounding per operation and no
  fused multiply-add, as the Go compiler does for amd64 by default. The sign of a zero is
  not modelled: it is not observable in what the embedding covers (the program divides by
  the constant 100 only).
* Comparisons involving NaN are false, as in Go.
* The conversion of a float64 to `int` or `time.Duration` truncates; for NaN, an infinity or
  a value outside the 64-bit range Go leaves the result to the implementation, and the
  embedding takes the result of amd64, `-2 ^ 63`.
* `int` and `time.Duration` values are mathematical integers (`Int`); durations are in
  nanoseconds, as in Go. The integer operations that can leave the 64-bit range go through
  `wrapInt64`.
* `rand.Float64()` is an explicit argument: the draw `u` the generator hands out.
* `busyFor` and `time.Sleep` are recorded as the actions of a schedule; wall-clock time
  is not modelled.
* A byte buffer is a list of bytes together with the log of the offsets stored to; a store
  outside the buffer is a run-time panic, `none`.
-/

namespace DummyLoad

/-! ## The type float64 -/

/-- A float64 value: NaN, an infinity, or a finite value given by its exact rational
value. -/
inductive F64 where
  | nan
  | negInf
  | posInf
  | fin (q : ℚ)
  deriving DecidableEq, Repr

/-- Nearest integer, halves to the even neighbour. -/
def roundHalfEven (x : ℚ) : Int :=
  if x - ⌊x⌋ < 1 / 2 then ⌊x⌋
  else if 1 / 2 < x - ⌊x⌋ then ⌊x⌋ + 1
  else if ⌊x⌋ % 2 = 0 then ⌊x⌋ else ⌊x⌋ + 1

/-- Exponent of the unit in the last place of a float64 of magnitude `q > 0`: 52 below the
binary exponent of `q`, and `-1074` in the subnormal range. -/
def ulpExp (q : ℚ) : Int := max (Int.log 2 q) (-1022) - 52

/-- Nearest multiple of the unit in the last place, for `q ≥ 0`. -/
def roundPos (q : ℚ) : ℚ := (roundHalfEven (q / 2 ^ ulpExp q) : ℚ) * 2 ^ ulpExp q

/-- Round to nearest, ties to even, with an unbounded exponent range upwards. -/
def roundQ (q : ℚ) : ℚ := if 0 ≤ q then roundPos q else -roundPos (-q)

/-- The magnitude from which a rounded result is an infinity. -/
def F64.huge : ℚ := 2 ^ 1024

/-- A rounded rational as a float64 value: an infinity on overflow. -/
def F64.ofRat (r : ℚ) : F64 :=
  if F64.huge ≤ r then F64.posInf else if r ≤ -F64.huge then F64.negInf else F64.fin r

/-- The float64 nearest to the exact value `q`: what an operation with exact result `q`
returns. -/
def roundF64 (q : ℚ) : F64 := F64.ofRat (roundQ q)

/-- Comparison `x <= y` of Go: false as soon as one side is NaN. -/
def F64.le : F64 → F64 → Prop
  | .nan, _ => False
  | _, .nan => False
  | .negInf, _ => True
  | _, .posInf => True
  | .fin a, .fin b => a ≤ b
  | _, _ => False

/-- Comparison `x < y` of Go: false as soon as one side is NaN. -/
def F64.lt : F64 → F64 → Prop
  | .nan, _ => False
  | _, .nan => False
  | .negInf, .negInf => False
  | .negInf, _ => True
  | .posInf, _ => False
  | .fin _, .negInf => False
  | .fin _, .posInf => True
  | .fin a, .fin b => a < b

instance : LE F64 := ⟨F64.le⟩

instance : LT F64 := ⟨F64.lt⟩

instance F64.decLe (x y : F64) : Decidable (x ≤ y) := by
  cases x <;> cases y <;> simp only [LE.le, F64.le] <;> infer_instance

instance F64.decLt (x y : F64) : Decidable (x < y) := by
  cases x <;> cases y <;> simp only [LT.lt, F64.lt] <;> infer_instance

/-- Unary minus. -/
def F64.neg : F64 → F64
  | .nan => .nan
  | .negInf => .posInf
  | .posInf => .negInf
  | .fin q => .fin (-q)

/-- Addition `x + y`. -/
def F64.add : F64 → F64 → F64
  | .nan, _ => .nan
  | _, .nan => .nan
  | .posInf, .negInf => .nan
  | .negInf, .posInf => .nan
  | .posInf, _ => .posInf
  | _, .posInf => .posInf
  | .negInf, _ => .negInf
  | _, .negInf => .negInf
  | .fin a, .fin b => roundF64 (a + b)

/-- Subtraction `x - y`. -/
def F64.sub (x y : F64) : F64 := F64.add x (F64.neg y)

/-- An infinity of the sign of `a * s`, where `s` is `1` or `-1`; NaN for `a = 0`. -/
def F64.infOfSign (a : ℚ) (positive : Bool) : F64 :=
  if a = 0 then .nan
  else if (0 < a) = positive then .posInf else .negInf

/-- Multiplication `x * y`. -/
def F64.mul : F64 → F64 → F64
  | .nan, _ => .nan
  | _, .nan => .nan
  | .fin a, .fin b => roundF64 (a * b)
  | .fin a, .posInf => F64.infOfSign a true
  | .fin a, .negInf => F64.infOfSign a false
  | .posInf, .fin b => F64.infOfSign b true
  | .negInf, .fin b => F64.infOfSign b false
  | .posInf, .posInf => .posInf
  | .negInf, .negInf => .posInf
  | .posInf, .negInf => .negInf
  | .negInf, .posInf => .negInf

/-- Division `x / y`. A zero divisor counts as `+0`. -/
def F64.div : F64 → F64 → F64
  | .nan, _ => .nan
  | _, .nan => .nan
  | .fin a, .fin b => if b = 0 then F64.infOfSign a true else roundF64 (a / b)
  | .fin _, .posInf => .fin 0
  | .fin _, .negInf => .fin 0
  | .posInf, .fin b => if 0 ≤ b then .posInf else .negInf
  | .negInf, .fin b => if 0 ≤ b then .negInf else .posInf
  | _, _ => .nan

/-- Conversion `float64(n)` of an integer. -/
def F64.ofInt (n : Int) : F64 := roundF64 (n : ℚ)

/-- The fractional part of a rational discarded (truncation towards zero). -/
def truncToInt (x : ℚ) : Int :=
  if 0 ≤ x then ⌊x⌋ else -⌊-x⌋

/-- Conversion `int(x)` or `time.Duration(x)` of a float64: truncation towards zero; the
result of amd64, `-2 ^ 63`, where Go leaves it to the implementation. -/
def F64.toInt : F64 → Int
  | .fin q => if -2 ^ 63 ≤ truncToInt q ∧ truncToInt q < 2 ^ 63 then truncToInt q else -2 ^ 63
  | _ => -2 ^ 63

/-- Nearest integer to a rational, halves away from zero. -/
def roundAway (x : ℚ) : Int :=
  if x < 0 then -⌊-x + 1 / 2⌋ else ⌊x + 1 / 2⌋

/-- Function `math.Round`: nearest integer, halves rounded away from zero; the result is
still a float64, and NaN and the infinities are returned as they are. -/
def mathRound : F64 → F64
  | .fin q => .fin ((roundAway q : Int) : ℚ)
  | x => x

/-- A finite value that a float64 variable can hold. -/
def F64.IsFinite : F64 → Prop
  | .fin q => roundF64 q = .fin q
  | _ => False

/-- Two's-complement wrap-around of a 64-bit signed integer operation. -/
def wrapInt64 (x : Int) : Int :=
  (x + 2 ^ 63) % 2 ^ 64 - 2 ^ 63

/-- A value of the Go type `int` on a 64-bit platform. -/
def IsInt64 (n : Int) : Prop := -2 ^ 63 ≤ n ∧ n < 2 ^ 63

/-! ## Jitter and clamping (main.go, lines 132-148) -/

/-- Function `applyJitter` of main.go; `u` is the value of `rand.Float64()`, consulted only
when `jitter <= 0` is false. The scale is `1 + (u*2-1)*jitter`. -/
def applyJitter (value jitter : F64) (u : F64) : F64 :=
  if jitter ≤ F64.fin 0 then value
  else
    let scale := F64.add (F64.fin 1) (F64.mul (F64.sub (F64.mul u (F64.fin 2)) (F64.fin 1)) jitter)
    F64.mul value scale

/-- Function `clampFloat` of main.go. -/
def clampFloat (v lo hi : F64) : F64 :=
  if v < lo then lo
  else if v > hi then hi
  else v

/-! ## Configuration and per-request targets (main.go, lines 13-19 and 48-50) -/

/-- The flag variables read by the handler. -/
structure Config where
  cpuPercent : F64
  memMB : Int
  timeMS : Int
  jitter : F64
  deriving DecidableEq

/-- Line 48: `cpuJ := clampFloat(applyJitter(cpuPercent, jitter), 0, 100)`. -/
def cpuJ (c : Config) (u : F64) : F64 :=
  clampFloat (applyJitter c.cpuPercent c.jitter u) (F64.fin 0) (F64.fin 100)

/-- Line 49: `memJ := int(clampFloat(applyJitter(float64(memMB), jitter), 0, 1024))`. -/
def memJ (c : Config) (u : F64) : Int :=
  F64.toInt (clampFloat (applyJitter (F64.ofInt c.memMB) c.jitter u) (F64.fin 0) (F64.fin 1024))

/-- Line 50:
`timeJms := int(math.Round(clampFloat(applyJitter(float64(timeMS), jitter), 0, 60_000)))`. -/
def timeJms (c : Config) (u : F64) : Int :=
  F64.toInt (mathRound
    (clampFloat (applyJitter (F64.ofInt c.timeMS) c.jitter u) (F64.fin 0) (F64.fin 60000)))

/-! ## Memory toucher (main.go, lines 150-159) -/

/-- Constant `page` of `touchPages`. -/
def page : Nat := 4096

/-- A byte slice during a run: its bytes, and the offsets stored to so far, in program
order. -/
structure Mem where
  bytes : List UInt8
  writes : List Nat
  deriving DecidableEq

/-- Indexed store `b[i] = v`. Go checks the index: outside `0 ≤ i < len(b)` the store
panics, which is `none` here. -/
def Mem.store (m : Mem) (i : Nat) (v : UInt8) : Option Mem :=
  if i < m.bytes.length then some ⟨m.bytes.set i v, m.writes ++ [i]⟩ else none

/-- The loop `for i := 0; i < len(b); i += page { b[i] = 1 }`, entered at index `i`. -/
def touchLoop (m : Mem) (i : Nat) : Option Mem :=
  if i < m.bytes.length then
    match h : m.store i 1 with
    | none => none
    | some m' => touchLoop m' (i + page)
  else some m
termination_by m.bytes.length - i
decreasing_by
  have hl : m'.bytes.length = m.bytes.length := by
    unfold Mem.store at h
    by_cases hi : i < m.bytes.length
    · rw [if_pos hi] at h
      cases h
      exact List.length_set _ _ _
    · rw [if_neg hi] at h
      cases h
  simp only [page]
  omega

/-- Function `touchPages` of main.go, run on the buffer `b`. -/
def touchPages (b : List UInt8) : Option Mem :=
  match touchLoop ⟨b, []⟩ 0 with
  | none => none
  | some m =>
    if m.bytes.length > 0 then m.store (m.bytes.length - 1) 1
    else some m

/-! ## CPU load scheduler (main.go, lines 76-116) -/

/-- What the scheduler does to the outside world: burn CPU for `d` nanoseconds
(`busyFor(d)`), or sleep for `d` nanoseconds (`time.Sleep(d)`). -/
inductive Action where
  | busyFor (d : Int)
  | sleep (d : Int)
  deriving DecidableEq, Repr

/-- The planned length of an action, in nanoseconds. -/
def Action.duration : Action → Int
  | .busyFor d => d
  | .sleep d => d

/-- Constant `time.Millisecond`, in nanoseconds. -/
def millisecond : Int := 1000000

/-- One pass through the body of the slice loop: the values of `win`, `busy` and `idle`. -/
structure Slice where
  win : Int
  busy : Int
  idle : Int
  deriving DecidableEq, Repr

/-- Lines 108-113: `busyFor(busy)` when `busy > 0`, then `time.Sleep(idle)` when
`idle > 0`. -/
def Slice.actions (s : Slice) : List Action :=
  (if s.busy > 0 then [Action.busyFor s.busy] else []) ++
    (if s.idle > 0 then [Action.sleep s.idle] else [])

/-- Lines 99-106: the slice computed when `elapsed` nanoseconds are accounted for;
`busy := time.Duration(float64(win) * (percent / 100.0))` and `idle := win - busy`. -/
def nextSlice (percent : F64) (total window elapsed : Int) : Slice :=
  let remaining := total - elapsed
  let win := if remaining < window then remaining else window
  let busy := F64.toInt (F64.mul (F64.ofInt win) (F64.div percent (F64.fin 100)))
  let idle := wrapInt64 (win - busy)
  ⟨win, busy, idle⟩

/-- The loop `for elapsed < total { ... elapsed += win }` of lines 98-115. Every test of
the loop condition uses one unit of fuel; `none` means the fuel ran out. -/
def sliceLoop (percent : F64) (total window : Int) : Nat → Int → Option (List Slice)
  | 0, _ => none
  | fuel + 1, elapsed =>
    if elapsed < total then
      let s := nextSlice percent total window elapsed
      match sliceLoop percent total window fuel (elapsed + s.win) with
      | none => none
      | some rest => some (s :: rest)
    else some []

/-- Lines 92-95: the window is 10 ms, or `total` when that is shorter. -/
def window (total : Int) : Int :=
  if total < 10 * millisecond then total else 10 * millisecond

/-- Lines 92-115: the loop is entered with `elapsed = 0`. Each slice advances `elapsed` by at
least one nanosecond, so `total + 1` tests of the loop condition are enough. -/
def cpuLoadSlices (percent : F64) (total : Int) : Option (List Slice) :=
  sliceLoop percent total (window total) (total.toNat + 1) 0

/-- Function `cpuLoadForDuration` of main.go: the schedule of actions it performs. -/
def cpuLoadForDuration (percent : F64) (total : Int) : Option (List Action) :=
  if total ≤ 0 then some []
  else if percent ≤ F64.fin 0 then some [Action.sleep total]
  else if percent ≥ F64.fin 100 then some [Action.busyFor total]
  else
    match cpuLoadSlices percent total with
    | none => none
    | some slices => some (slices.flatMap Slice.actions)

/-- Sum of the planned lengths of a schedule. -/
def planned (acts : List Action) : Int :=
  (acts.map Action.duration).sum

/-- The CPU time an action burns: its length for `busyFor`, nothing for a sleep. -/
def Action.busy : Action → Int
  | .busyFor d => d
  | .sleep _ => 0

/-- Total busy time of a schedule, in nanoseconds. -/
def busyTime (acts : List Action) : Int :=
  (acts.map Action.busy).sum

/-! ## Request handler (main.go, lines 46-74) -/

/-- The fields the handler prints in the response line (the measured elapsed time is not
modelled). -/
structure Response where
  targetTime : Int
  targetCpu : F64
  targetMem : Int
  jitter : F64
  deriving DecidableEq

/-- Everything one request does. -/
structure Run where
  memBlock : Option Mem
  total : Int
  schedule : List Action
  response : Response

/-- Builtin `make([]byte, n)`: a zero-filled buffer; a negative length panics. -/
def makeBytes (n : Int) : Option (List UInt8) :=
  if n < 0 then none else some (List.replicate n.toNat 0)

/-- Lines 55-59: allocate and touch `memJ` MB when `memJ > 0`. -/
def allocate (memJ : Int) : Option (Option Mem) :=
  if memJ > 0 then
    match makeBytes (wrapInt64 (wrapInt64 (memJ * 1024) * 1024)) with
    | none => none
    | some b =>
      match touchPages b with
      | none => none
      | some m => some (some m)
  else some none

/-- Function `handler` of main.go, for the configuration `c` and the three draws of the
random generator; `none` is a panic or a scheduler that does not return. -/
def handler (c : Config) (u₁ u₂ u₃ : F64) : Option Run :=
  let cpu := cpuJ c u₁
  let mem := memJ c u₂
  let time := timeJms c u₃
  match allocate mem with
  | none => none
  | some memBlock =>
    let total := wrapInt64 (time * millisecond)
    match cpuLoadForDuration cpu total with
    | none => none
    | some schedule =>
      some ⟨memBlock, total, schedule, ⟨time, cpu, mem, c.jitter⟩⟩

/-! ## Rounding to an integer, halves to even -/

theorem roundHalfEven_cases (x : ℚ) : roundHalfEven x = ⌊x⌋ ∨ roundHalfEven x = ⌊x⌋ + 1 := by
  unfold roundHalfEven
  split
  · exact Or.inl rfl
  · split
    · exact Or.inr rfl
    · split
      · exact Or.inl rfl
      · exact Or.inr rfl

theorem roundHalfEven_intCast (z : Int) : roundHalfEven (z : ℚ) = z := by
  unfold roundHalfEven
  rw [Int.floor_intCast, if_pos (by norm_num)]

theorem roundHalfEven_mono {x y : ℚ} (h : x ≤ y) : roundHalfEven x ≤ roundHalfEven y := by
  have hfl : ⌊x⌋ ≤ ⌊y⌋ := Int.floor_mono h
  by_cases hlt : ⌊x⌋ < ⌊y⌋
  · rcases roundHalfEven_cases x with hx | hx <;> rcases roundHalfEven_cases y with hy | hy <;>
      omega
  · have heq : ⌊x⌋ = ⌊y⌋ := by omega
    unfold roundHalfEven
    rw [heq]
    have hfr : x - (⌊y⌋ : ℚ) ≤ y - (⌊y⌋ : ℚ) := by linarith
    split_ifs <;> first | omega | (exfalso; linarith)

theorem abs_roundHalfEven_sub_le (x : ℚ) : |((roundHalfEven x : Int) : ℚ) - x| ≤ 1 / 2 := by
  have h1 := Int.floor_le x
  have h2 := Int.lt_floor_add_one x
  unfold roundHalfEven
  rw [abs_le]
  split_ifs <;> push_cast <;> constructor <;> linarith

theorem roundHalfEven_le_of_le {x : ℚ} {n : Int} (h : x ≤ (n : ℚ)) : roundHalfEven x ≤ n := by
  have := roundHalfEven_mono h
  rwa [roundHalfEven_intCast] at this

theorem le_roundHalfEven_of_le {x : ℚ} {n : Int} (h : (n : ℚ) ≤ x) : n ≤ roundHalfEven x := by
  have := roundHalfEven_mono h
  rwa [roundHalfEven_intCast] at this
/-! ## The exponent of the last place -/

theorem two_zpow_pos (e : Int) : (0 : ℚ) < 2 ^ e := zpow_pos (by norm_num) e

theorem two_zpow_le {a b : Int} (h : a ≤ b) : (2 : ℚ) ^ a ≤ 2 ^ b :=
  zpow_le_zpow_right₀ (by norm_num) h

theorem two_zpow_add (a b : Int) : (2 : ℚ) ^ (a + b) = 2 ^ a * 2 ^ b :=
  zpow_add₀ (by norm_num) a b

theorem log_two_spec {q : ℚ} (hq : 0 < q) :
    (2 : ℚ) ^ Int.log 2 q ≤ q ∧ q < (2 : ℚ) ^ (Int.log 2 q + 1) := by
  have h1 := Int.zpow_log_le_self (b := 2) (by norm_num) hq
  have h2 := Int.lt_zpow_succ_log_self (b := 2) (by norm_num) q
  simp only [Nat.cast_ofNat] at h1 h2
  exact ⟨h1, h2⟩

theorem log_two_eq {q : ℚ} {e : Int} (h1 : (2 : ℚ) ^ e ≤ q) (h2 : q < (2 : ℚ) ^ (e + 1)) :
    Int.log 2 q = e := by
  have hq : 0 < q := lt_of_lt_of_le (two_zpow_pos e) h1
  have a1 : e ≤ Int.log 2 q := by
    rw [← Int.zpow_le_iff_le_log (by norm_num) hq]
    simpa using h1
  have a2 : Int.log 2 q < e + 1 := by
    rw [← Int.lt_zpow_iff_log_lt (by norm_num) hq]
    simpa using h2
  omega

theorem log_two_lt {q : ℚ} {k : Int} (hq : 0 < q) (h : q < (2 : ℚ) ^ k) : Int.log 2 q < k := by
  rw [← Int.lt_zpow_iff_log_lt (by norm_num) hq]
  simpa using h

theorem ulpExp_ge (q : ℚ) : -1074 ≤ ulpExp q := by
  unfold ulpExp
  omega

theorem ulpExp_of_mem {q : ℚ} {e : Int} (h1 : (2 : ℚ) ^ e ≤ q) (h2 : q < (2 : ℚ) ^ (e + 1))
    (he : -1022 ≤ e) : ulpExp q = e - 52 := by
  unfold ulpExp
  rw [log_two_eq h1 h2]
  omega

theorem ulpExp_le_of_lt {q : ℚ} {k : Int} (hq : 0 < q) (h : q < (2 : ℚ) ^ k) (hk : -1021 ≤ k) :
    ulpExp q ≤ k - 53 := by
  have := log_two_lt hq h
  unfold ulpExp
  omega

theorem ulpExp_mono {q r : ℚ} (hq : 0 < q) (h : q ≤ r) : ulpExp q ≤ ulpExp r := by
  have := Int.log_mono_right (b := 2) hq h
  unfold ulpExp
  omega

theorem lt_two_zpow_ulpExp {q : ℚ} (hq : 0 < q) : q < (2 : ℚ) ^ (ulpExp q + 53) := by
  have h := (log_two_spec hq).2
  refine lt_of_lt_of_le h (two_zpow_le ?_)
  unfold ulpExp
  omega

theorem two_zpow_ulpExp_le {q r : ℚ} (hr : 0 < r) (h : ulpExp q < ulpExp r) :
    (2 : ℚ) ^ (ulpExp r + 52) ≤ r := by
  have h1 := (log_two_spec hr).1
  have e : ulpExp r + 52 = Int.log 2 r := by
    unfold ulpExp at h ⊢
    omega
  rw [e]
  exact h1

/-! ## Rounding a non-negative rational to 53 significant bits -/

theorem roundPos_zero : roundPos 0 = 0 := by
  unfold roundPos
  rw [zero_div, ← Int.cast_zero, roundHalfEven_intCast]
  simp

theorem roundPos_nonneg {q : ℚ} (hq : 0 ≤ q) : 0 ≤ roundPos q := by
  unfold roundPos
  have h0 : (0 : ℚ) ≤ q / 2 ^ ulpExp q := div_nonneg hq (le_of_lt (two_zpow_pos _))
  have h1 : (0 : Int) ≤ roundHalfEven (q / 2 ^ ulpExp q) :=
    le_roundHalfEven_of_le (by simpa using h0)
  have h2 : (0 : ℚ) ≤ ((roundHalfEven (q / 2 ^ ulpExp q) : Int) : ℚ) := by exact_mod_cast h1
  exact mul_nonneg h2 (le_of_lt (two_zpow_pos _))

theorem roundPos_mono {q r : ℚ} (hq : 0 ≤ q) (h : q ≤ r) : roundPos q ≤ roundPos r := by
  rcases eq_or_lt_of_le hq with hq0 | hqpos
  · rw [← hq0, roundPos_zero]
    exact roundPos_nonneg (le_trans hq h)
  have hrpos : 0 < r := lt_of_lt_of_le hqpos h
  have hle := ulpExp_mono hqpos h
  rcases eq_or_lt_of_le hle with heq | hlt
  · unfold roundPos
    rw [heq]
    have hdiv : q / 2 ^ ulpExp r ≤ r / 2 ^ ulpExp r :=
      div_le_div_of_nonneg_right h (le_of_lt (two_zpow_pos _))
    have := roundHalfEven_mono hdiv
    have hc : ((roundHalfEven (q / 2 ^ ulpExp r) : Int) : ℚ) ≤
        ((roundHalfEven (r / 2 ^ ulpExp r) : Int) : ℚ) := by exact_mod_cast this
    exact mul_le_mul_of_nonneg_right hc (le_of_lt (two_zpow_pos _))
  · -- the two arguments lie in different binades
    have hq1 : roundPos q ≤ (2 : ℚ) ^ (ulpExp q + 53) := by
      unfold roundPos
      have hx : q / 2 ^ ulpExp q ≤ (((2 : Int) ^ 53 : Int) : ℚ) := by
        rw [div_le_iff₀ (two_zpow_pos _)]
        have := lt_two_zpow_ulpExp hqpos
        rw [add_comm, two_zpow_add] at this
        have e : (((2 : Int) ^ 53 : Int) : ℚ) = (2 : ℚ) ^ (53 : Int) := by norm_num
        rw [e]
        exact le_of_lt this
      have := roundHalfEven_le_of_le hx
      have hc : ((roundHalfEven (q / 2 ^ ulpExp q) : Int) : ℚ) ≤ (((2 : Int) ^ 53 : Int) : ℚ) := by
        exact_mod_cast this
      have e : (((2 : Int) ^ 53 : Int) : ℚ) = (2 : ℚ) ^ (53 : Int) := by norm_num
      rw [e] at hc
      calc ((roundHalfEven (q / 2 ^ ulpExp q) : Int) : ℚ) * 2 ^ ulpExp q
          ≤ (2 : ℚ) ^ (53 : Int) * 2 ^ ulpExp q :=
            mul_le_mul_of_nonneg_right hc (le_of_lt (two_zpow_pos _))
        _ = (2 : ℚ) ^ (ulpExp q + 53) := by rw [add_comm, two_zpow_add]
    have hr1 : (2 : ℚ) ^ (ulpExp r + 52) ≤ roundPos r := by
      unfold roundPos
      have hx : (((2 : Int) ^ 52 : Int) : ℚ) ≤ r / 2 ^ ulpExp r := by
        rw [le_div_iff₀ (two_zpow_pos _)]
        have := two_zpow_ulpExp_le hrpos hlt
        rw [add_comm, two_zpow_add] at this
        have e : (((2 : Int) ^ 52 : Int) : ℚ) = (2 : ℚ) ^ (52 : Int) := by norm_num
        rw [e]
        exact this
      have := le_roundHalfEven_of_le hx
      have hc : (((2 : Int) ^ 52 : Int) : ℚ) ≤ ((roundHalfEven (r / 2 ^ ulpExp r) : Int) : ℚ) := by
        exact_mod_cast this
      have e : (((2 : Int) ^ 52 : Int) : ℚ) = (2 : ℚ) ^ (52 : Int) := by norm_num
      rw [e] at hc
      calc (2 : ℚ) ^ (ulpExp r + 52) = (2 : ℚ) ^ (52 : Int) * 2 ^ ulpExp r := by
            rw [add_comm, two_zpow_add]
        _ ≤ ((roundHalfEven (r / 2 ^ ulpExp r) : Int) : ℚ) * 2 ^ ulpExp r :=
            mul_le_mul_of_nonneg_right hc (le_of_lt (two_zpow_pos _))
    have hmid : (2 : ℚ) ^ (ulpExp q + 53) ≤ (2 : ℚ) ^ (ulpExp r + 52) := two_zpow_le (by omega)
    exact le_trans hq1 (le_trans hmid hr1)

theorem abs_roundPos_sub_le (q : ℚ) : |roundPos q - q| ≤ 2 ^ ulpExp q / 2 := by
  unfold roundPos
  have hpos := two_zpow_pos (ulpExp q)
  have h := abs_roundHalfEven_sub_le (q / 2 ^ ulpExp q)
  have e : ((roundHalfEven (q / 2 ^ ulpExp q) : Int) : ℚ) * 2 ^ ulpExp q - q =
      (((roundHalfEven (q / 2 ^ ulpExp q) : Int) : ℚ) - q / 2 ^ ulpExp q) * 2 ^ ulpExp q := by
    field_simp
  rw [e, abs_mul, abs_of_pos hpos]
  calc |((roundHalfEven (q / 2 ^ ulpExp q) : Int) : ℚ) - q / 2 ^ ulpExp q| * 2 ^ ulpExp q
      ≤ 1 / 2 * 2 ^ ulpExp q := mul_le_mul_of_nonneg_right h (le_of_lt hpos)
    _ = 2 ^ ulpExp q / 2 := by ring

theorem roundPos_of_int_mul {q : ℚ} (z : Int) (h : q = (z : ℚ) * 2 ^ ulpExp q) :
    roundPos q = q := by
  unfold roundPos
  have hpos := two_zpow_pos (ulpExp q)
  have e : q / 2 ^ ulpExp q = (z : ℚ) := by
    rw [div_eq_iff (ne_of_gt hpos)]
    exact h
  rw [e, roundHalfEven_intCast]
  exact h.symm
/-! ## Rounding a rational of either sign -/

theorem roundQ_of_nonneg {q : ℚ} (h : 0 ≤ q) : roundQ q = roundPos q := by
  unfold roundQ
  rw [if_pos h]

theorem roundQ_of_neg {q : ℚ} (h : q < 0) : roundQ q = -roundPos (-q) := by
  unfold roundQ
  rw [if_neg (not_le.mpr h)]

theorem roundQ_zero : roundQ 0 = 0 := by
  rw [roundQ_of_nonneg (le_refl 0), roundPos_zero]

theorem roundQ_neg (q : ℚ) : roundQ (-q) = -roundQ q := by
  rcases lt_trichotomy q 0 with h | h | h
  · rw [roundQ_of_neg h, roundQ_of_nonneg (by linarith), neg_neg]
  · subst h
    simp [roundQ_zero]
  · rw [roundQ_of_neg (by linarith), roundQ_of_nonneg (le_of_lt h), neg_neg]

theorem roundQ_nonneg {q : ℚ} (h : 0 ≤ q) : 0 ≤ roundQ q := by
  rw [roundQ_of_nonneg h]
  exact roundPos_nonneg h

theorem roundQ_nonpos {q : ℚ} (h : q ≤ 0) : roundQ q ≤ 0 := by
  have := roundQ_nonneg (neg_nonneg.mpr h)
  rw [roundQ_neg] at this
  linarith

/-- Rounding is monotone. -/
theorem roundQ_mono {q r : ℚ} (h : q ≤ r) : roundQ q ≤ roundQ r := by
  by_cases hq : 0 ≤ q
  · rw [roundQ_of_nonneg hq, roundQ_of_nonneg (le_trans hq h)]
    exact roundPos_mono hq h
  · have hq' : q < 0 := not_le.mp hq
    by_cases hr : 0 ≤ r
    · exact le_trans (roundQ_nonpos (le_of_lt hq')) (roundQ_nonneg hr)
    · have hr' : r < 0 := not_le.mp hr
      rw [roundQ_of_neg hq', roundQ_of_neg hr']
      have := roundPos_mono (q := -r) (r := -q) (by linarith) (by linarith)
      linarith

/-- Rounding moves a value by at most half a unit in the last place. -/
theorem abs_roundQ_sub_le (q : ℚ) : |roundQ q - q| ≤ 2 ^ ulpExp |q| / 2 := by
  by_cases hq : 0 ≤ q
  · rw [roundQ_of_nonneg hq, abs_of_nonneg hq]
    exact abs_roundPos_sub_le q
  · have hq' : q < 0 := not_le.mp hq
    rw [roundQ_of_neg hq', abs_of_neg hq']
    have := abs_roundPos_sub_le (-q)
    have e : -roundPos (-q) - q = -(roundPos (-q) - -q) := by ring
    rw [e, abs_neg]
    exact this

/-- An integer of magnitude below `2 ^ 53` is a float64 value. -/
theorem roundQ_intCast {n : Int} (h : |n| < 2 ^ 53) : roundQ (n : ℚ) = (n : ℚ) := by
  have key : ∀ m : Int, 0 < m → m < 2 ^ 53 → roundPos (m : ℚ) = (m : ℚ) := by
    intro m hm0 hm1
    have hmq : (0 : ℚ) < (m : ℚ) := by exact_mod_cast hm0
    have hlt : (m : ℚ) < (2 : ℚ) ^ (53 : Int) := by
      have : ((m : Int) : ℚ) < (((2 : Int) ^ 53 : Int) : ℚ) := by exact_mod_cast hm1
      have e : (((2 : Int) ^ 53 : Int) : ℚ) = (2 : ℚ) ^ (53 : Int) := by norm_num
      rwa [e] at this
    have hu : ulpExp (m : ℚ) ≤ 0 := by
      have := ulpExp_le_of_lt hmq hlt (by norm_num)
      omega
    obtain ⟨k, hk⟩ : ∃ k : Nat, ulpExp (m : ℚ) = -(k : Int) :=
      ⟨(-ulpExp (m : ℚ)).toNat, by omega⟩
    apply roundPos_of_int_mul (m * 2 ^ k)
    rw [hk, zpow_neg, zpow_natCast]
    push_cast
    field_simp
  rcases lt_trichotomy n 0 with hn | hn | hn
  · have hq : ((n : Int) : ℚ) < 0 := by exact_mod_cast hn
    rw [roundQ_of_neg hq]
    have h1 : |n| = -n := abs_of_neg hn
    have := key (-n) (by omega) (by omega)
    push_cast at this
    rw [this]
    ring
  · subst hn
    simp [roundQ_zero]
  · have hq : (0 : ℚ) ≤ ((n : Int) : ℚ) := by exact_mod_cast le_of_lt hn
    rw [roundQ_of_nonneg hq]
    have h1 : |n| = n := abs_of_pos hn
    exact key n hn (by omega)

/-! ## The order of float64 values -/

theorem F64.le_fin_fin {a b : ℚ} : (F64.fin a ≤ F64.fin b) ↔ a ≤ b := Iff.rfl

theorem F64.lt_fin_fin {a b : ℚ} : (F64.fin a < F64.fin b) ↔ a < b := Iff.rfl

theorem F64.not_nan_le (x : F64) : ¬ (F64.nan ≤ x) := by
  intro h
  cases x <;> exact h

theorem F64.not_le_nan (x : F64) : ¬ (x ≤ F64.nan) := by
  intro h
  cases x <;> exact h

theorem F64.not_nan_lt (x : F64) : ¬ (F64.nan < x) := by
  intro h
  cases x <;> exact h

theorem F64.not_lt_nan (x : F64) : ¬ (x < F64.nan) := by
  intro h
  cases x <;> exact h

theorem F64.le_chain {x y z : F64} (h1 : x ≤ y) (h2 : y ≤ z) : x ≤ z := by
  cases x <;> cases y <;> cases z <;>
    first
    | exact h1
    | exact h2
    | exact trivial
    | exact le_trans (F64.le_fin_fin.mp h1) (F64.le_fin_fin.mp h2)
    | (exfalso; exact h1)
    | (exfalso; exact h2)

/-- A value between two finite values is finite. -/
theorem F64.eq_fin_of_mem {x : F64} {a b : ℚ} (h1 : F64.fin a ≤ x) (h2 : x ≤ F64.fin b) :
    ∃ q, x = F64.fin q ∧ a ≤ q ∧ q ≤ b := by
  cases x with
  | nan => exact absurd h1 (F64.not_le_nan _)
  | negInf => exact absurd h1 (fun h => h)
  | posInf => exact absurd h2 (fun h => h)
  | fin q => exact ⟨q, rfl, h1, h2⟩

/-! ## Rounding to float64 -/

theorem F64.huge_pos : (0 : ℚ) < F64.huge := by
  unfold F64.huge
  positivity

theorem F64.two_pow_53_le_huge : (2 : ℚ) ^ 53 ≤ F64.huge := by
  unfold F64.huge
  exact pow_le_pow_right₀ (by norm_num) (by norm_num)

theorem F64.ofRat_of_mem {r : ℚ} (h1 : -F64.huge < r) (h2 : r < F64.huge) :
    F64.ofRat r = F64.fin r := by
  unfold F64.ofRat
  rw [if_neg (not_le.mpr h2), if_neg (not_le.mpr h1)]

theorem F64.le_posInf {x : F64} (h : x ≠ F64.nan) : x ≤ F64.posInf := by
  cases x with
  | nan => exact absurd rfl h
  | negInf => exact True.intro
  | posInf => exact True.intro
  | fin q => exact True.intro

theorem F64.negInf_le {x : F64} (h : x ≠ F64.nan) : F64.negInf ≤ x := by
  cases x with
  | nan => exact absurd rfl h
  | negInf => exact True.intro
  | posInf => exact True.intro
  | fin q => exact True.intro

theorem F64.ofRat_ne_nan (r : ℚ) : F64.ofRat r ≠ F64.nan := by
  unfold F64.ofRat
  by_cases h1 : F64.huge ≤ r
  · rw [if_pos h1]
    exact fun h => F64.noConfusion h
  · rw [if_neg h1]
    by_cases h2 : r ≤ -F64.huge
    · rw [if_pos h2]
      exact fun h => F64.noConfusion h
    · rw [if_neg h2]
      exact fun h => F64.noConfusion h

theorem F64.ofRat_mono {q r : ℚ} (h : q ≤ r) : F64.ofRat q ≤ F64.ofRat r := by
  have hpos := F64.huge_pos
  by_cases h1 : F64.huge ≤ r
  · have e : F64.ofRat r = F64.posInf := by
      unfold F64.ofRat
      rw [if_pos h1]
    rw [e]
    exact F64.le_posInf (F64.ofRat_ne_nan q)
  · by_cases h2 : q ≤ -F64.huge
    · have e : F64.ofRat q = F64.negInf := by
        unfold F64.ofRat
        rw [if_neg (by intro h3; linarith), if_pos h2]
      rw [e]
      exact F64.negInf_le (F64.ofRat_ne_nan r)
    · rw [F64.ofRat_of_mem (not_le.mp h2) (by linarith [not_le.mp h1]),
        F64.ofRat_of_mem (by linarith [not_le.mp h2]) (not_le.mp h1)]
      exact F64.le_fin_fin.mpr h

theorem roundF64_mono {q r : ℚ} (h : q ≤ r) : roundF64 q ≤ roundF64 r :=
  F64.ofRat_mono (roundQ_mono h)

theorem roundF64_ne_nan (q : ℚ) : roundF64 q ≠ F64.nan := F64.ofRat_ne_nan _

/-- An integer of magnitude below `2 ^ 53` converts to float64 exactly. -/
theorem roundF64_intCast {n : Int} (h : |n| < 2 ^ 53) : roundF64 (n : ℚ) = F64.fin (n : ℚ) := by
  unfold roundF64
  rw [roundQ_intCast h]
  have hh := F64.two_pow_53_le_huge
  have e : ((((2 : Int) ^ 53 : Int)) : ℚ) = (2 : ℚ) ^ 53 := by norm_num
  apply F64.ofRat_of_mem
  · have h1 : -(2 : Int) ^ 53 < n := (abs_lt.mp h).1
    have h2 : (((-(2 : Int) ^ 53 : Int)) : ℚ) < (n : ℚ) := by exact_mod_cast h1
    rw [Int.cast_neg, e] at h2
    linarith
  · have h1 : n < (2 : Int) ^ 53 := (abs_lt.mp h).2
    have h2 : (n : ℚ) < ((((2 : Int) ^ 53 : Int)) : ℚ) := by exact_mod_cast h1
    rw [e] at h2
    linarith

/-- Rounding keeps a value between two float64 values that enclose it. -/
theorem roundF64_mem {q a b : ℚ} (ha : roundF64 a = F64.fin a) (hb : roundF64 b = F64.fin b)
    (h1 : a ≤ q) (h2 : q ≤ b) : ∃ r, roundF64 q = F64.fin r ∧ a ≤ r ∧ r ≤ b := by
  have m1 := roundF64_mono h1
  have m2 := roundF64_mono h2
  rw [ha] at m1
  rw [hb] at m2
  exact F64.eq_fin_of_mem m1 m2
/-! ## More on the order of float64 values -/

theorem F64.le_rfl_of_ne_nan {x : F64} (h : x ≠ F64.nan) : x ≤ x := by
  cases x with
  | nan => exact absurd rfl h
  | negInf => exact True.intro
  | posInf => exact True.intro
  | fin q => exact F64.le_fin_fin.mpr (le_refl q)

theorem F64.ne_nan_of_le_left {x y : F64} (h : x ≤ y) : x ≠ F64.nan := by
  intro hx
  rw [hx] at h
  exact F64.not_nan_le _ h

theorem F64.ne_nan_of_le_right {x y : F64} (h : x ≤ y) : y ≠ F64.nan := by
  intro hy
  rw [hy] at h
  exact F64.not_le_nan _ h

theorem F64.ne_nan_of_lt_left {x y : F64} (h : x < y) : x ≠ F64.nan := by
  intro hx
  rw [hx] at h
  exact F64.not_nan_lt _ h

theorem F64.ne_nan_of_lt_right {x y : F64} (h : x < y) : y ≠ F64.nan := by
  intro hy
  rw [hy] at h
  exact F64.not_lt_nan _ h

/-- Two values that are not NaN are comparable. -/
theorem F64.le_of_not_lt {x y : F64} (hx : x ≠ F64.nan) (hy : y ≠ F64.nan) (h : ¬ x < y) :
    y ≤ x := by
  cases x with
  | nan => exact absurd rfl hx
  | negInf =>
    cases y with
    | nan => exact absurd rfl hy
    | negInf => exact True.intro
    | posInf => exact absurd True.intro h
    | fin b => exact absurd True.intro h
  | posInf =>
    cases y with
    | nan => exact absurd rfl hy
    | negInf => exact True.intro
    | posInf => exact True.intro
    | fin b => exact True.intro
  | fin a =>
    cases y with
    | nan => exact absurd rfl hy
    | negInf => exact True.intro
    | posInf => exact absurd True.intro h
    | fin b => exact F64.le_fin_fin.mpr (not_lt.mp (fun hab => h (F64.lt_fin_fin.mpr hab)))

theorem F64.not_lt_of_le {x y : F64} (h : x ≤ y) : ¬ y < x := by
  intro h2
  cases x with
  | nan => exact F64.not_nan_le _ h
  | negInf =>
    cases y with
    | nan => exact h
    | negInf => exact h2
    | posInf => exact h2
    | fin b => exact h2
  | posInf =>
    cases y with
    | nan => exact h
    | negInf => exact h
    | posInf => exact h2
    | fin b => exact h
  | fin a =>
    cases y with
    | nan => exact h
    | negInf => exact h
    | posInf => exact h2
    | fin b => exact absurd (F64.lt_fin_fin.mp h2) (not_lt.mpr (F64.le_fin_fin.mp h))

theorem F64.lt_imp_le {x y : F64} (h : x < y) : x ≤ y := by
  cases x with
  | nan => exact absurd h (F64.not_nan_lt _)
  | negInf =>
    cases y with
    | nan => exact h
    | negInf => exact True.intro
    | posInf => exact True.intro
    | fin b => exact True.intro
  | posInf => exact absurd h (fun h => by cases y <;> exact h)
  | fin a =>
    cases y with
    | nan => exact h
    | negInf => exact h
    | posInf => exact True.intro
    | fin b => exact F64.le_fin_fin.mpr (le_of_lt (F64.lt_fin_fin.mp h))

/-- A value strictly between two finite values is finite. -/
theorem F64.eq_fin_of_lt_of_lt {x : F64} {a b : ℚ} (h1 : F64.fin a < x) (h2 : x < F64.fin b) :
    ∃ q, x = F64.fin q ∧ a < q ∧ q < b := by
  cases x with
  | nan => exact absurd h1 (F64.not_lt_nan _)
  | negInf => exact absurd h1 (fun h => h)
  | posInf => exact absurd h2 (fun h => h)
  | fin q => exact ⟨q, rfl, h1, h2⟩

theorem F64.eq_fin_of_le_of_lt {x : F64} {a b : ℚ} (h1 : F64.fin a ≤ x) (h2 : x < F64.fin b) :
    ∃ q, x = F64.fin q ∧ a ≤ q ∧ q < b := by
  cases x with
  | nan => exact absurd h1 (F64.not_le_nan _)
  | negInf => exact absurd h1 (fun h => h)
  | posInf => exact absurd h2 (fun h => h)
  | fin q => exact ⟨q, rfl, h1, h2⟩

theorem F64.isFinite_iff {x : F64} : x.IsFinite ↔ ∃ q, x = F64.fin q ∧ roundF64 q = F64.fin q := by
  cases x with
  | nan => exact ⟨fun h => h.elim, fun ⟨_, h, _⟩ => F64.noConfusion h⟩
  | negInf => exact ⟨fun h => h.elim, fun ⟨_, h, _⟩ => F64.noConfusion h⟩
  | posInf => exact ⟨fun h => h.elim, fun ⟨_, h, _⟩ => F64.noConfusion h⟩
  | fin q =>
    constructor
    · intro h
      exact ⟨q, rfl, h⟩
    · rintro ⟨r, hr, h⟩
      cases hr
      exact h

/-! ## Values that rounding leaves alone -/

theorem F64.huge_eq : F64.huge = (2 : ℚ) ^ (1024 : Int) := by
  unfold F64.huge
  rw [← zpow_natCast, Nat.cast_ofNat]

theorem roundF64_neg (q : ℚ) : roundF64 (-q) = F64.neg (roundF64 q) := by
  have hpos := F64.huge_pos
  unfold roundF64 F64.ofRat
  rw [roundQ_neg]
  by_cases h1 : F64.huge ≤ roundQ q
  · rw [if_pos h1, if_neg (by intro h; linarith), if_pos (by linarith)]
    rfl
  · rw [if_neg h1]
    by_cases h2 : roundQ q ≤ -F64.huge
    · rw [if_pos h2, if_pos (by linarith)]
      rfl
    · rw [if_neg h2, if_neg (by intro h; linarith), if_neg (by intro h; linarith)]
      rfl

/-- An integer of fewer than 54 bits times a power of two, not below the smallest
subnormal, rounds to itself. -/
theorem roundQ_int_mul_zpow {z e : Int} (hz : |z| < 2 ^ 53) (he : -1074 ≤ e) :
    roundQ ((z : ℚ) * 2 ^ e) = (z : ℚ) * 2 ^ e := by
  have key : ∀ m : Int, 0 < m → m < 2 ^ 53 → roundPos ((m : ℚ) * 2 ^ e) = (m : ℚ) * 2 ^ e := by
    intro m hm0 hm1
    have hmq : (0 : ℚ) < (m : ℚ) := by exact_mod_cast hm0
    have hq : (0 : ℚ) < (m : ℚ) * 2 ^ e := mul_pos hmq (two_zpow_pos e)
    have hlt : (m : ℚ) * 2 ^ e < (2 : ℚ) ^ (e + 53) := by
      have h1 : (m : ℚ) < (2 : ℚ) ^ (53 : Int) := by
        have : ((m : Int) : ℚ) < (((2 : Int) ^ 53 : Int) : ℚ) := by exact_mod_cast hm1
        have e' : (((2 : Int) ^ 53 : Int) : ℚ) = (2 : ℚ) ^ (53 : Int) := by norm_num
        rwa [e'] at this
      rw [add_comm, two_zpow_add]
      exact mul_lt_mul_of_pos_right h1 (two_zpow_pos e)
    have hlog := log_two_lt hq hlt
    have hu : ulpExp ((m : ℚ) * 2 ^ e) ≤ e := by
      unfold ulpExp
      omega
    obtain ⟨k, hk⟩ : ∃ k : Nat, e - ulpExp ((m : ℚ) * 2 ^ e) = (k : Int) :=
      ⟨(e - ulpExp ((m : ℚ) * 2 ^ e)).toNat, by omega⟩
    apply roundPos_of_int_mul (m * 2 ^ k)
    have he' : e = (k : Int) + ulpExp ((m : ℚ) * 2 ^ e) := by omega
    conv_lhs => rw [he']
    rw [two_zpow_add, zpow_natCast]
    push_cast
    ring
  rcases lt_trichotomy z 0 with hn | hn | hn
  · have hq : ((z : Int) : ℚ) * 2 ^ e < 0 :=
      mul_neg_of_neg_of_pos (by exact_mod_cast hn) (two_zpow_pos e)
    rw [roundQ_of_neg hq]
    have h1 : |z| = -z := abs_of_neg hn
    have := key (-z) (by omega) (by omega)
    push_cast at this
    rw [show -((z : ℚ) * 2 ^ e) = -(z : ℚ) * 2 ^ e by ring, this]
    ring
  · subst hn
    simp [roundQ_zero]
  · have hq : (0 : ℚ) ≤ ((z : Int) : ℚ) * 2 ^ e :=
      mul_nonneg (by exact_mod_cast le_of_lt hn) (le_of_lt (two_zpow_pos e))
    rw [roundQ_of_nonneg hq]
    have h1 : |z| = z := abs_of_pos hn
    exact key z hn (by omega)

/-- The same as a float64 value, when the exponent stays below the overflow threshold. -/
theorem roundF64_int_mul_zpow {z e : Int} (hz : |z| < 2 ^ 53) (he : -1074 ≤ e) (he2 : e ≤ 971) :
    roundF64 ((z : ℚ) * 2 ^ e) = F64.fin ((z : ℚ) * 2 ^ e) := by
  unfold roundF64
  rw [roundQ_int_mul_zpow hz he]
  have hzq : |(z : ℚ)| < (2 : ℚ) ^ (53 : Int) := by
    have : ((|z| : Int) : ℚ) < (((2 : Int) ^ 53 : Int) : ℚ) := by exact_mod_cast hz
    have e' : (((2 : Int) ^ 53 : Int) : ℚ) = (2 : ℚ) ^ (53 : Int) := by norm_num
    rw [e'] at this
    simpa using this
  have hb : |(z : ℚ) * 2 ^ e| < F64.huge := by
    rw [abs_mul, abs_of_pos (two_zpow_pos e)]
    calc |(z : ℚ)| * 2 ^ e < (2 : ℚ) ^ (53 : Int) * 2 ^ e :=
          mul_lt_mul_of_pos_right hzq (two_zpow_pos e)
      _ = (2 : ℚ) ^ (53 + e) := by rw [two_zpow_add]
      _ ≤ (2 : ℚ) ^ (1024 : Int) := two_zpow_le (by omega)
      _ = F64.huge := F64.huge_eq.symm
  have := abs_lt.mp hb
  exact F64.ofRat_of_mem this.1 this.2
/-! ## The largest finite value -/

/-- A finite float64 value is at most `2 ^ 1024 - 2 ^ 971` in magnitude. -/
theorem le_maxFloat_of_round_eq {j : ℚ} (h0 : 0 ≤ j) (h : roundF64 j = F64.fin j) :
    j ≤ (2 : ℚ) ^ (1024 : Int) - 2 ^ (971 : Int) := by
  have hpos := F64.huge_pos
  have hP : (0 : ℚ) < 2 ^ (971 : Int) := two_zpow_pos _
  have hsplit : (2 : ℚ) ^ (1024 : Int) = 2 ^ (53 : Int) * 2 ^ (971 : Int) := by
    rw [← two_zpow_add]
    norm_num
  rcases eq_or_lt_of_le h0 with hj0 | hjpos
  · rw [← hj0, hsplit]
    have : (1 : ℚ) ≤ 2 ^ (53 : Int) := by norm_num
    nlinarith
  -- the rounded value is `j` itself and is below the overflow threshold
  have hlt : roundQ j < F64.huge := by
    by_contra hge
    unfold roundF64 F64.ofRat at h
    rw [if_pos (not_lt.mp hge)] at h
    exact F64.noConfusion h
  have hgt : -F64.huge < roundQ j := by
    have := roundQ_nonneg h0
    linarith
  have hr : roundQ j = j := by
    unfold roundF64 at h
    rw [F64.ofRat_of_mem hgt hlt] at h
    exact F64.fin.inj h
  rw [hr, F64.huge_eq] at hlt
  rw [roundQ_of_nonneg h0] at hr
  have ha : ulpExp j ≤ 971 := by
    have := ulpExp_le_of_lt hjpos hlt (by norm_num)
    omega
  have hz : roundHalfEven (j / 2 ^ ulpExp j) ≤ 2 ^ 53 - 1 := by
    have hlt2 : ((roundHalfEven (j / 2 ^ ulpExp j) : Int) : ℚ) * 2 ^ ulpExp j <
        (2 : ℚ) ^ (53 : Int) * 2 ^ ulpExp j := by
      have h1 := lt_two_zpow_ulpExp hjpos
      rw [add_comm, two_zpow_add] at h1
      unfold roundPos at hr
      rw [hr]
      exact h1
    have hlt3 := lt_of_mul_lt_mul_right hlt2 (le_of_lt (two_zpow_pos _))
    have e : (2 : ℚ) ^ (53 : Int) = (((2 : Int) ^ 53 : Int) : ℚ) := by norm_num
    rw [e] at hlt3
    have : roundHalfEven (j / 2 ^ ulpExp j) < (2 : Int) ^ 53 := by exact_mod_cast hlt3
    omega
  have hzq : ((roundHalfEven (j / 2 ^ ulpExp j) : Int) : ℚ) ≤ (2 : ℚ) ^ (53 : Int) - 1 := by
    have : ((roundHalfEven (j / 2 ^ ulpExp j) : Int) : ℚ) ≤ (((2 : Int) ^ 53 - 1 : Int) : ℚ) := by
      exact_mod_cast hz
    have e : (((2 : Int) ^ 53 - 1 : Int) : ℚ) = (2 : ℚ) ^ (53 : Int) - 1 := by norm_num
    rwa [e] at this
  have hz0 : (0 : ℚ) ≤ (2 : ℚ) ^ (53 : Int) - 1 := by norm_num
  calc j = ((roundHalfEven (j / 2 ^ ulpExp j) : Int) : ℚ) * 2 ^ ulpExp j := by
        unfold roundPos at hr
        exact hr.symm
    _ ≤ ((2 : ℚ) ^ (53 : Int) - 1) * 2 ^ ulpExp j :=
        mul_le_mul_of_nonneg_right hzq (le_of_lt (two_zpow_pos _))
    _ ≤ ((2 : ℚ) ^ (53 : Int) - 1) * 2 ^ (971 : Int) :=
        mul_le_mul_of_nonneg_left (two_zpow_le ha) hz0
    _ = (2 : ℚ) ^ (1024 : Int) - 2 ^ (971 : Int) := by
        rw [hsplit]
        ring

/-- A value at most one above the largest finite value rounds to a finite value. -/
theorem roundQ_lt_huge {q : ℚ} (h0 : 0 ≤ q)
    (h : q ≤ (2 : ℚ) ^ (1024 : Int) - 2 ^ (971 : Int) + 1) : roundQ q < F64.huge := by
  have hP : (2 : ℚ) ≤ 2 ^ (970 : Int) := by
    have := two_zpow_le (a := 1) (b := 970) (by norm_num)
    simpa using this
  have e971 : (2 : ℚ) ^ (971 : Int) = 2 * 2 ^ (970 : Int) := by
    rw [show (971 : Int) = 1 + 970 by norm_num, two_zpow_add]
    norm_num
  rcases eq_or_lt_of_le h0 with hq0 | hqpos
  · rw [← hq0, roundQ_zero]
    exact F64.huge_pos
  have hlt : q < (2 : ℚ) ^ (1024 : Int) := by
    rw [e971] at h
    linarith
  have ha : ulpExp q ≤ 971 := by
    have := ulpExp_le_of_lt hqpos hlt (by norm_num)
    omega
  have herr := abs_roundQ_sub_le q
  rw [abs_of_pos hqpos] at herr
  have hu : (2 : ℚ) ^ ulpExp q ≤ 2 * 2 ^ (970 : Int) := by
    rw [← e971]
    exact two_zpow_le ha
  have := (abs_le.mp herr).2
  rw [F64.huge_eq]
  rw [e971] at h
  linarith

theorem roundF64_eq_fin_of_abs_le {q : ℚ}
    (h : |q| ≤ (2 : ℚ) ^ (1024 : Int) - 2 ^ (971 : Int) + 1) : ∃ r, roundF64 q = F64.fin r := by
  have hpos := F64.huge_pos
  by_cases hq : 0 ≤ q
  · rw [abs_of_nonneg hq] at h
    have h1 := roundQ_lt_huge hq h
    have h2 := roundQ_nonneg hq
    exact ⟨roundQ q, F64.ofRat_of_mem (by linarith) h1⟩
  · have hq' : q < 0 := not_le.mp hq
    rw [abs_of_neg hq'] at h
    have h1 := roundQ_lt_huge (q := -q) (by linarith) h
    rw [roundQ_neg] at h1
    have h2 := roundQ_nonpos (le_of_lt hq')
    exact ⟨roundQ q, F64.ofRat_of_mem (by linarith) (by linarith)⟩

/-! ## Conversions between float64 and integers -/

theorem truncToInt_intCast (n : Int) : truncToInt (n : ℚ) = n := by
  unfold truncToInt
  split
  · exact Int.floor_intCast n
  · rw [← Int.cast_neg, Int.floor_intCast]
    omega

theorem truncToInt_eq_floor {x : ℚ} (h : 0 ≤ x) : truncToInt x = ⌊x⌋ := by
  unfold truncToInt
  rw [if_pos h]

theorem truncToInt_nonneg {x : ℚ} (h : 0 ≤ x) : 0 ≤ truncToInt x := by
  rw [truncToInt_eq_floor h]
  exact Int.floor_nonneg.mpr h

theorem truncToInt_le_of_le {x : ℚ} {n : Int} (h0 : 0 ≤ x) (h : x ≤ (n : ℚ)) :
    truncToInt x ≤ n := by
  rw [truncToInt_eq_floor h0]
  have h1 : ((⌊x⌋ : Int) : ℚ) ≤ (n : ℚ) := le_trans (Int.floor_le x) h
  exact_mod_cast h1

/-- Converting a finite value in `[0, n]`, `n` inside the 64-bit range, truncates it. -/
theorem F64.toInt_fin_of_mem {q : ℚ} {n : Int} (h0 : 0 ≤ q) (h1 : q ≤ (n : ℚ))
    (hn : n < 2 ^ 63) :
    F64.toInt (F64.fin q) = ⌊q⌋ ∧ 0 ≤ ⌊q⌋ ∧ ⌊q⌋ ≤ n := by
  have a0 := truncToInt_nonneg h0
  have a1 := truncToInt_le_of_le h0 h1
  have e := truncToInt_eq_floor h0
  unfold F64.toInt
  simp only
  rw [if_pos ⟨by omega, by omega⟩]
  rw [e] at a0 a1
  exact ⟨e, a0, a1⟩

theorem F64.ofInt_eq {n : Int} (h : |n| < 2 ^ 53) : F64.ofInt n = F64.fin (n : ℚ) :=
  roundF64_intCast h

theorem roundAway_of_nonneg {x : ℚ} (h : 0 ≤ x) : roundAway x = ⌊x + 1 / 2⌋ := by
  unfold roundAway
  rw [if_neg (not_lt.mpr h)]

theorem roundAway_intCast (n : Int) : roundAway (n : ℚ) = n := by
  have key : ∀ m : Int, ⌊(m : ℚ) + 1 / 2⌋ = m := by
    intro m
    rw [Int.floor_eq_iff]
    constructor <;> norm_num
  unfold roundAway
  split
  · have h := key (-n)
    push_cast at h
    rw [h]
    omega
  · rw [key]

theorem wrapInt64_of_mem {x : Int} (h0 : -2 ^ 63 ≤ x) (h1 : x < 2 ^ 63) : wrapInt64 x = x := by
  unfold wrapInt64
  omega

/-! ## A few float64 values -/

/-- An integer of magnitude below `2 ^ 53`, however it is written, is a float64 value. -/
theorem roundF64_int (n : Int) (h : |n| < 2 ^ 53) (q : ℚ) (hq : q = (n : ℚ)) :
    roundF64 q = F64.fin q := by
  rw [hq]
  exact roundF64_intCast h

theorem roundF64_half : roundF64 (1 / 2) = F64.fin (1 / 2) := by
  have h := roundF64_int_mul_zpow (z := 1) (e := -1) (by norm_num) (by norm_num) (by norm_num)
  have e : ((1 : Int) : ℚ) * 2 ^ (-1 : Int) = 1 / 2 := by norm_num
  rw [e] at h
  exact h

theorem roundF64_three_halves : roundF64 (3 / 2) = F64.fin (3 / 2) := by
  have h := roundF64_int_mul_zpow (z := 3) (e := -1) (by norm_num) (by norm_num) (by norm_num)
  have e : ((3 : Int) : ℚ) * 2 ^ (-1 : Int) = 3 / 2 := by norm_num
  rw [e] at h
  exact h

theorem isFinite_int (n : Int) (h : |n| < 2 ^ 53) (q : ℚ) (hq : q = (n : ℚ)) :
    (F64.fin q).IsFinite :=
  roundF64_int n h q hq

theorem F64.mul_fin (a b : ℚ) : F64.mul (F64.fin a) (F64.fin b) = roundF64 (a * b) := rfl

theorem F64.add_fin (a b : ℚ) : F64.add (F64.fin a) (F64.fin b) = roundF64 (a + b) := rfl

theorem F64.sub_fin (a b : ℚ) : F64.sub (F64.fin a) (F64.fin b) = roundF64 (a + -b) := rfl

theorem F64.div_fin (a b : ℚ) (hb : b ≠ 0) :
    F64.div (F64.fin a) (F64.fin b) = roundF64 (a / b) := by
  unfold F64.div
  simp only [if_neg hb]

/-- Rounding a value of the binade `[2 ^ e, 2 ^ (e + 1))`: the nearest multiple of
`2 ^ (e - 52)`. -/
theorem roundF64_of_binade {q : ℚ} (e m : Int) (h1 : (2 : ℚ) ^ e ≤ q)
    (h2 : q < (2 : ℚ) ^ (e + 1)) (he : -1022 ≤ e) (he2 : e ≤ 1022)
    (hm : roundHalfEven (q / 2 ^ (e - 52)) = m) :
    roundF64 q = F64.fin ((m : ℚ) * 2 ^ (e - 52)) := by
  have hq : 0 < q := lt_of_lt_of_le (two_zpow_pos e) h1
  have hr : roundQ q = (m : ℚ) * 2 ^ (e - 52) := by
    rw [roundQ_of_nonneg (le_of_lt hq)]
    unfold roundPos
    rw [ulpExp_of_mem h1 h2 he, hm]
  have hup : roundQ q ≤ (2 : ℚ) ^ (e + 1) := by
    have h := roundQ_mono (le_of_lt h2)
    have e1 := roundQ_int_mul_zpow (z := 1) (e := e + 1) (by norm_num) (by omega)
    simp only [Int.cast_one, one_mul] at e1
    rw [e1] at h
    exact h
  have hlt : roundQ q < F64.huge := by
    rw [F64.huge_eq]
    exact lt_of_le_of_lt hup (zpow_lt_zpow_right₀ (by norm_num) (by omega))
  have hge := roundQ_nonneg (le_of_lt hq)
  have hpos := F64.huge_pos
  unfold roundF64
  rw [F64.ofRat_of_mem (by linarith) hlt, hr]

/-! ## Clamping -/

theorem clampFloat_nan (lo hi : F64) : clampFloat F64.nan lo hi = F64.nan := by
  unfold clampFloat
  rw [if_neg (F64.not_nan_lt lo), if_neg (F64.not_lt_nan hi)]

theorem clampFloat_ge (v lo hi : F64) (h : lo ≤ hi) (hv : v ≠ F64.nan) :
    lo ≤ clampFloat v lo hi := by
  unfold clampFloat
  by_cases h1 : v < lo
  · rw [if_pos h1]
    exact F64.le_rfl_of_ne_nan (F64.ne_nan_of_le_left h)
  · rw [if_neg h1]
    by_cases h2 : v > hi
    · rw [if_pos h2]
      exact h
    · rw [if_neg h2]
      exact F64.le_of_not_lt hv (F64.ne_nan_of_le_left h) h1

theorem clampFloat_le (v lo hi : F64) (h : lo ≤ hi) (hv : v ≠ F64.nan) :
    clampFloat v lo hi ≤ hi := by
  unfold clampFloat
  by_cases h1 : v < lo
  · rw [if_pos h1]
    exact h
  · rw [if_neg h1]
    by_cases h2 : v > hi
    · rw [if_pos h2]
      exact F64.le_rfl_of_ne_nan (F64.ne_nan_of_le_right h)
    · rw [if_neg h2]
      exact F64.le_of_not_lt (F64.ne_nan_of_le_right h) hv h2

theorem clampFloat_of_mem (v lo hi : F64) (h1 : lo ≤ v) (h2 : v ≤ hi) :
    clampFloat v lo hi = v := by
  unfold clampFloat
  rw [if_neg (F64.not_lt_of_le h1), if_neg (F64.not_lt_of_le h2)]

/-- The clamp of a value that is not NaN to finite bounds is a finite value between them. -/
theorem clampFloat_eq_fin (v : F64) {a b : ℚ} (h : a ≤ b) (hv : v ≠ F64.nan) :
    ∃ q, clampFloat v (F64.fin a) (F64.fin b) = F64.fin q ∧ a ≤ q ∧ q ≤ b :=
  F64.eq_fin_of_mem (clampFloat_ge v _ _ (F64.le_fin_fin.mpr h) hv)
    (clampFloat_le v _ _ (F64.le_fin_fin.mpr h) hv)

/-- C1, as stated, fails for NaN: with `lo = 0 ≤ hi = 100` both comparisons of `clampFloat`
are false for `v = NaN`, and the result is NaN, which lies in no interval. -/
theorem clampFloat_nan_escapes :
    (F64.fin 0 ≤ F64.fin 100) ∧
      clampFloat F64.nan (F64.fin 0) (F64.fin 100) = F64.nan ∧
      ¬ (F64.fin 0 ≤ clampFloat F64.nan (F64.fin 0) (F64.fin 100) ∧
          clampFloat F64.nan (F64.fin 0) (F64.fin 100) ≤ F64.fin 100) := by
  refine ⟨F64.le_fin_fin.mpr (by norm_num), clampFloat_nan _ _, ?_⟩
  rw [clampFloat_nan]
  intro h
  exact F64.not_le_nan _ h.1

/-- C1, amended: for `lo ≤ hi` and every `v` that is not NaN the result of `clampFloat` lies in
`[lo, hi]`; and a value already in `[lo, hi]`, the bounds themselves included, is returned as
it is. -/
theorem clampFloat_spec (v lo hi : F64) (h : lo ≤ hi) (hv : v ≠ F64.nan) :
    (lo ≤ clampFloat v lo hi ∧ clampFloat v lo hi ≤ hi) ∧
      (lo ≤ v → v ≤ hi → clampFloat v lo hi = v) :=
  ⟨⟨clampFloat_ge v lo hi h hv, clampFloat_le v lo hi h hv⟩, clampFloat_of_mem v lo hi⟩

theorem clampFloat_spec_witness :
    (F64.fin 0 ≤ F64.fin 100 ∧ F64.fin 250 ≠ F64.nan ∧ F64.posInf ≠ F64.nan) ∧
      (F64.fin 0 ≤ clampFloat (F64.fin 250) (F64.fin 0) (F64.fin 100) ∧
        clampFloat (F64.fin 250) (F64.fin 0) (F64.fin 100) ≤ F64.fin 100) ∧
      (F64.fin 0 ≤ clampFloat F64.posInf (F64.fin 0) (F64.fin 100) ∧
        clampFloat F64.posInf (F64.fin 0) (F64.fin 100) ≤ F64.fin 100) ∧
      clampFloat (F64.fin 0) (F64.fin 0) (F64.fin 100) = F64.fin 0 ∧
      clampFloat (F64.fin 100) (F64.fin 0) (F64.fin 100) = F64.fin 100 ∧
      clampFloat (F64.fin (75 / 2)) (F64.fin 0) (F64.fin 100) = F64.fin (75 / 2) :=
  ⟨⟨F64.le_fin_fin.mpr (by norm_num), fun h => F64.noConfusion h, fun h => F64.noConfusion h⟩,
    (clampFloat_spec (F64.fin 250) (F64.fin 0) (F64.fin 100) (F64.le_fin_fin.mpr (by norm_num))
      (fun h => F64.noConfusion h)).1,
    (clampFloat_spec F64.posInf (F64.fin 0) (F64.fin 100) (F64.le_fin_fin.mpr (by norm_num))
      (fun h => F64.noConfusion h)).1,
    (clampFloat_spec (F64.fin 0) (F64.fin 0) (F64.fin 100) (F64.le_fin_fin.mpr (by norm_num))
      (fun h => F64.noConfusion h)).2 (F64.le_fin_fin.mpr (by norm_num))
      (F64.le_fin_fin.mpr (by norm_num)),
    (clampFloat_spec (F64.fin 100) (F64.fin 0) (F64.fin 100) (F64.le_fin_fin.mpr (by norm_num))
      (fun h => F64.noConfusion h)).2 (F64.le_fin_fin.mpr (by norm_num))
      (F64.le_fin_fin.mpr (by norm_num)),
    (clampFloat_spec (F64.fin (75 / 2)) (F64.fin 0) (F64.fin 100)
      (F64.le_fin_fin.mpr (by norm_num)) (fun h => F64.noConfusion h)).2
      (F64.le_fin_fin.mpr (by norm_num)) (F64.le_fin_fin.mpr (by norm_num))⟩

/-! ## Jitter -/

/-- The first branch of `applyJitter`: the value itself. -/
theorem applyJitter_eq_of_nonpos (value jitter u : F64) (h : jitter ≤ F64.fin 0) :
    applyJitter value jitter u = value :=
  if_pos h

/-- C3: with a jitter factor `≤ 0`, zero in particular, `applyJitter` returns the value
unchanged, whatever the generator draws. -/
theorem applyJitter_of_nonpos (value jitter u : F64) (h : jitter ≤ F64.fin 0) :
    applyJitter value jitter u = value := by
  unfold applyJitter
  rw [if_pos h]

theorem applyJitter_of_nonpos_witness :
    (F64.fin 0 ≤ F64.fin 0 ∧ F64.fin (-3) ≤ F64.fin 0 ∧ F64.negInf ≤ F64.fin 0) ∧
      applyJitter (F64.fin 42) (F64.fin 0) (F64.fin (7 / 8)) = F64.fin 42 ∧
      applyJitter (F64.fin (-5)) (F64.fin (-3)) (F64.fin (1 / 3)) = F64.fin (-5) ∧
      applyJitter F64.nan (F64.negInf) (F64.fin (1 / 3)) = F64.nan :=
  ⟨⟨F64.le_fin_fin.mpr (by norm_num), F64.le_fin_fin.mpr (by norm_num), True.intro⟩,
    applyJitter_of_nonpos (F64.fin 42) (F64.fin 0) (F64.fin (7 / 8))
      (F64.le_fin_fin.mpr (by norm_num)),
    applyJitter_of_nonpos (F64.fin (-5)) (F64.fin (-3)) (F64.fin (1 / 3))
      (F64.le_fin_fin.mpr (by norm_num)),
    applyJitter_of_nonpos F64.nan F64.negInf (F64.fin (1 / 3)) True.intro⟩

/-- With a jitter factor that is not `≤ 0` the result is the value times the scale. -/
theorem applyJitter_of_pos (value jitter u : F64) (h : ¬ jitter ≤ F64.fin 0) :
    applyJitter value jitter u =
      F64.mul value
        (F64.add (F64.fin 1) (F64.mul (F64.sub (F64.mul u (F64.fin 2)) (F64.fin 1)) jitter)) := by
  unfold applyJitter
  rw [if_neg h]

/-- For a draw in `[0, 1)` the factor `u*2 - 1` is a finite value in `[-1, 1]`. -/
theorem draw_factor {a : ℚ} (h0 : 0 ≤ a) (h1 : a < 1) :
    ∃ w, F64.sub (F64.mul (F64.fin a) (F64.fin 2)) (F64.fin 1) = F64.fin w ∧ -1 ≤ w ∧ w ≤ 1 := by
  obtain ⟨t, ht, ht0, ht1⟩ := roundF64_mem (q := a * 2) (a := 0) (b := 2)
    (roundF64_int 0 (by norm_num) _ (by norm_num))
    (roundF64_int 2 (by norm_num) _ (by norm_num)) (by linarith) (by linarith)
  rw [F64.mul_fin, ht, F64.sub_fin]
  exact roundF64_mem (q := t + -1) (a := -1) (b := 1)
    (roundF64_int (-1) (by norm_num) _ (by norm_num))
    (roundF64_int 1 (by norm_num) _ (by norm_num)) (by linarith) (by linarith)

/-- The scale `1 + (u*2-1)*jitter` for a finite float64 jitter factor `j ≥ 0` and a draw in
`[0, 1)`: a finite value between `1 - jitter` and `1 + jitter`, both evaluated in float64. -/
theorem scale_mem {j a : ℚ} (hj : roundF64 j = F64.fin j) (hj0 : 0 ≤ j) (h0 : 0 ≤ a)
    (h1 : a < 1) :
    ∃ s, F64.add (F64.fin 1)
        (F64.mul (F64.sub (F64.mul (F64.fin a) (F64.fin 2)) (F64.fin 1)) (F64.fin j)) =
          F64.fin s ∧
      F64.sub (F64.fin 1) (F64.fin j) ≤ F64.fin s ∧
      F64.fin s ≤ F64.add (F64.fin 1) (F64.fin j) := by
  obtain ⟨w, hw, hw0, hw1⟩ := draw_factor h0 h1
  have hjn : roundF64 (-j) = F64.fin (-j) := by
    rw [roundF64_neg, hj]
    rfl
  obtain ⟨p, hp, hp0, hp1⟩ := roundF64_mem (q := w * j) hjn hj (by nlinarith) (by nlinarith)
  have hmax := le_maxFloat_of_round_eq hj0 hj
  obtain ⟨s, hs⟩ := roundF64_eq_fin_of_abs_le (q := 1 + p) (by
    rw [abs_le]
    constructor <;> linarith)
  rw [hw, F64.mul_fin, hp, F64.add_fin, F64.sub_fin, F64.add_fin]
  refine ⟨s, hs, ?_, ?_⟩
  · rw [← hs]
    exact roundF64_mono (by linarith)
  · rw [← hs]
    exact roundF64_mono (by linarith)

/-- Rounding an expression whose value is the integer `n`, `|n| < 2 ^ 53`, gives `n`. -/
theorem roundF64_eq (n : Int) (h : |n| < 2 ^ 53) (q r : ℚ) (hq : q = (n : ℚ)) (hr : r = (n : ℚ)) :
    roundF64 q = F64.fin r := by
  rw [hq, hr]
  exact roundF64_intCast h

theorem jitter_example :
    applyJitter (F64.fin (-10)) (F64.fin (1 / 2)) (F64.fin (1 / 2)) = F64.fin (-10) := by
  have hpos : ¬ (F64.fin (1 / 2) ≤ F64.fin 0) := by
    intro h
    have := F64.le_fin_fin.mp h
    norm_num at this
  have e1 : F64.mul (F64.fin (1 / 2)) (F64.fin 2) = F64.fin 1 :=
    roundF64_eq 1 (by norm_num) _ _ (by norm_num) (by norm_num)
  have e2 : F64.sub (F64.fin 1) (F64.fin 1) = F64.fin 0 :=
    roundF64_eq 0 (by norm_num) _ _ (by norm_num) (by norm_num)
  have e3 : F64.mul (F64.fin 0) (F64.fin (1 / 2)) = F64.fin 0 :=
    roundF64_eq 0 (by norm_num) _ _ (by norm_num) (by norm_num)
  have e4 : F64.add (F64.fin 1) (F64.fin 0) = F64.fin 1 :=
    roundF64_eq 1 (by norm_num) _ _ (by norm_num) (by norm_num)
  have e5 : F64.mul (F64.fin (-10)) (F64.fin 1) = F64.fin (-10) :=
    roundF64_eq (-10) (by norm_num) _ _ (by norm_num) (by norm_num)
  rw [applyJitter_of_pos _ _ _ hpos, e1, e2, e3, e4, e5]

/-- C2, as stated, fails for a negative value: with value -10, jitter 1/2 and the draw 1/2
every operation is exact, the scale is 1 and the result -10, while the stated interval
`[-5, -15]` is empty. -/
theorem applyJitter_interval_fails_for_negative :
    (F64.fin 0 ≤ F64.fin (1 / 2) ∧ F64.fin (1 / 2) ≤ F64.fin 1) ∧
      (F64.fin 0 ≤ F64.fin (1 / 2) ∧ F64.fin (1 / 2) < F64.fin 1) ∧
      applyJitter (F64.fin (-10)) (F64.fin (1 / 2)) (F64.fin (1 / 2)) = F64.fin (-10) ∧
      F64.mul (F64.fin (-10)) (F64.sub (F64.fin 1) (F64.fin (1 / 2))) = F64.fin (-5) ∧
      F64.mul (F64.fin (-10)) (F64.add (F64.fin 1) (F64.fin (1 / 2))) = F64.fin (-15) ∧
      ¬ (F64.fin (-5) ≤ applyJitter (F64.fin (-10)) (F64.fin (1 / 2)) (F64.fin (1 / 2)) ∧
          applyJitter (F64.fin (-10)) (F64.fin (1 / 2)) (F64.fin (1 / 2)) ≤ F64.fin (-15)) := by
  have e1 : F64.sub (F64.fin 1) (F64.fin (1 / 2)) = F64.fin (1 / 2) := by
    rw [F64.sub_fin, show (1 : ℚ) + -(1 / 2) = 1 / 2 by norm_num]
    exact roundF64_half
  have e2 : F64.add (F64.fin 1) (F64.fin (1 / 2)) = F64.fin (3 / 2) := by
    rw [F64.add_fin, show (1 : ℚ) + 1 / 2 = 3 / 2 by norm_num]
    exact roundF64_three_halves
  have e3 : F64.mul (F64.fin (-10)) (F64.fin (1 / 2)) = F64.fin (-5) :=
    roundF64_eq (-5) (by norm_num) _ _ (by norm_num) (by norm_num)
  have e4 : F64.mul (F64.fin (-10)) (F64.fin (3 / 2)) = F64.fin (-15) :=
    roundF64_eq (-15) (by norm_num) _ _ (by norm_num) (by norm_num)
  refine ⟨⟨F64.le_fin_fin.mpr (by norm_num), F64.le_fin_fin.mpr (by norm_num)⟩,
    ⟨F64.le_fin_fin.mpr (by norm_num), F64.lt_fin_fin.mpr (by norm_num)⟩, jitter_example,
    by rw [e1, e3], by rw [e2, e4], ?_⟩
  rw [jitter_example]
  intro h
  have := F64.le_fin_fin.mp h.1
  norm_num at this

/-- C2, amended: for a finite value, a jitter factor in `[0, 1]` and a draw in `[0, 1)`, when
`value ≥ 0` the result of `applyJitter` lies between `value*(1-jitter)` and
`value*(1+jitter)`, both evaluated in float64 as the result is; when `value ≤ 0` it lies in
the mirrored interval, between `value*(1+jitter)` and `value*(1-jitter)`. -/
theorem applyJitter_interval (value jitter u : F64) (hv : value.IsFinite)
    (hjf : jitter.IsFinite) (hj0 : F64.fin 0 ≤ jitter) (hj1 : jitter ≤ F64.fin 1)
    (hu0 : F64.fin 0 ≤ u) (hu1 : u < F64.fin 1) :
    (F64.fin 0 ≤ value →
        F64.mul value (F64.sub (F64.fin 1) jitter) ≤ applyJitter value jitter u ∧
        applyJitter value jitter u ≤ F64.mul value (F64.add (F64.fin 1) jitter)) ∧
      (value ≤ F64.fin 0 →
        F64.mul value (F64.add (F64.fin 1) jitter) ≤ applyJitter value jitter u ∧
        applyJitter value jitter u ≤ F64.mul value (F64.sub (F64.fin 1) jitter)) := by
  obtain ⟨v, rfl, hvr⟩ := F64.isFinite_iff.mp hv
  obtain ⟨j, rfl, hjr⟩ := F64.isFinite_iff.mp hjf
  obtain ⟨a, rfl, ha0, ha1⟩ := F64.eq_fin_of_le_of_lt hu0 hu1
  have hj0' : (0 : ℚ) ≤ j := F64.le_fin_fin.mp hj0
  have hj1' : j ≤ 1 := F64.le_fin_fin.mp hj1
  obtain ⟨lo, hlo, hlo0, hlo1⟩ := roundF64_mem (q := 1 + -j) (a := 0) (b := 1)
    (roundF64_int 0 (by norm_num) _ (by norm_num))
    (roundF64_int 1 (by norm_num) _ (by norm_num)) (by linarith) (by linarith)
  obtain ⟨hi, hhi, hhi0, hhi1⟩ := roundF64_mem (q := 1 + j) (a := 1) (b := 2)
    (roundF64_int 1 (by norm_num) _ (by norm_num))
    (roundF64_int 2 (by norm_num) _ (by norm_num)) (by linarith) (by linarith)
  rw [F64.sub_fin, F64.add_fin, hlo, hhi, F64.mul_fin, F64.mul_fin]
  by_cases hz : F64.fin j ≤ F64.fin 0
  · -- no jitter: the value itself, and both bounds are the value
    have hj : j = 0 := le_antisymm (F64.le_fin_fin.mp hz) hj0'
    subst hj
    have elo : lo = 1 := by
      have : roundF64 ((1 : ℚ) + -0) = F64.fin 1 :=
        roundF64_eq 1 (by norm_num) _ _ (by norm_num) (by norm_num)
      rw [this] at hlo
      exact (F64.fin.inj hlo).symm
    have ehi : hi = 1 := by
      have : roundF64 ((1 : ℚ) + 0) = F64.fin 1 :=
        roundF64_eq 1 (by norm_num) _ _ (by norm_num) (by norm_num)
      rw [this] at hhi
      exact (F64.fin.inj hhi).symm
    rw [applyJitter_eq_of_nonpos _ _ _ hz, elo, ehi, mul_one, hvr]
    have hrefl : F64.fin v ≤ F64.fin v := F64.le_fin_fin.mpr (le_refl v)
    exact ⟨fun _ => ⟨hrefl, hrefl⟩, fun _ => ⟨hrefl, hrefl⟩⟩
  · obtain ⟨s, hs, hs0, hs1⟩ := scale_mem hjr hj0' ha0 ha1
    rw [F64.sub_fin, hlo] at hs0
    rw [F64.add_fin, hhi] at hs1
    have hs0' : lo ≤ s := F64.le_fin_fin.mp hs0
    have hs1' : s ≤ hi := F64.le_fin_fin.mp hs1
    rw [applyJitter_of_pos _ _ _ hz, hs, F64.mul_fin]
    constructor
    · intro hv0
      have hv0' : (0 : ℚ) ≤ v := F64.le_fin_fin.mp hv0
      exact ⟨roundF64_mono (mul_le_mul_of_nonneg_left hs0' hv0'),
        roundF64_mono (mul_le_mul_of_nonneg_left hs1' hv0')⟩
    · intro hv0
      have hv0' : v ≤ 0 := F64.le_fin_fin.mp hv0
      exact ⟨roundF64_mono (mul_le_mul_of_nonpos_left hs1' hv0'),
        roundF64_mono (mul_le_mul_of_nonpos_left hs0' hv0')⟩

theorem applyJitter_interval_witness :
    ((F64.fin 80).IsFinite ∧ (F64.fin (-10)).IsFinite ∧ (F64.fin (1 / 2)).IsFinite ∧
        F64.fin 0 ≤ F64.fin (1 / 2) ∧ F64.fin (1 / 2) ≤ F64.fin 1 ∧
        F64.fin 0 ≤ F64.fin (1 / 4) ∧ F64.fin (1 / 4) < F64.fin 1) ∧
      (F64.mul (F64.fin 80) (F64.sub (F64.fin 1) (F64.fin (1 / 2))) ≤
          applyJitter (F64.fin 80) (F64.fin (1 / 2)) (F64.fin (1 / 4)) ∧
        applyJitter (F64.fin 80) (F64.fin (1 / 2)) (F64.fin (1 / 4)) ≤
          F64.mul (F64.fin 80) (F64.add (F64.fin 1) (F64.fin (1 / 2)))) ∧
      (F64.mul (F64.fin (-10)) (F64.add (F64.fin 1) (F64.fin (1 / 2))) ≤
          applyJitter (F64.fin (-10)) (F64.fin (1 / 2)) (F64.fin (1 / 4)) ∧
        applyJitter (F64.fin (-10)) (F64.fin (1 / 2)) (F64.fin (1 / 4)) ≤
          F64.mul (F64.fin (-10)) (F64.sub (F64.fin 1) (F64.fin (1 / 2)))) :=
  ⟨⟨isFinite_int 80 (by norm_num) _ (by norm_num), isFinite_int (-10) (by norm_num) _ (by norm_num),
      roundF64_half, F64.le_fin_fin.mpr (by norm_num), F64.le_fin_fin.mpr (by norm_num),
      F64.le_fin_fin.mpr (by norm_num), F64.lt_fin_fin.mpr (by norm_num)⟩,
    (applyJitter_interval (F64.fin 80) (F64.fin (1 / 2)) (F64.fin (1 / 4))
      (isFinite_int 80 (by norm_num) _ (by norm_num)) roundF64_half
      (F64.le_fin_fin.mpr (by norm_num)) (F64.le_fin_fin.mpr (by norm_num))
      (F64.le_fin_fin.mpr (by norm_num)) (F64.lt_fin_fin.mpr (by norm_num))).1
      (F64.le_fin_fin.mpr (by norm_num)),
    (applyJitter_interval (F64.fin (-10)) (F64.fin (1 / 2)) (F64.fin (1 / 4))
      (isFinite_int (-10) (by norm_num) _ (by norm_num)) roundF64_half
      (F64.le_fin_fin.mpr (by norm_num)) (F64.le_fin_fin.mpr (by norm_num))
      (F64.le_fin_fin.mpr (by norm_num)) (F64.lt_fin_fin.mpr (by norm_num))).2
      (F64.le_fin_fin.mpr (by norm_num))⟩

/-- Against the exact endpoints the interval of C2 can be missed by one rounding step: with
value 100, the jitter factor 0.1 (as a float64) and the largest draw `1 - 2 ^ -53`, the
result is `110 + 2 ^ -46`, above the exact `100 * (1 + jitter)`. It equals the float64 value
of that expression. -/
theorem applyJitter_exceeds_exact_bound :
    roundF64 (1 / 10) = F64.fin (((7205759403792794 : Int) : ℚ) * 2 ^ ((-4 : Int) - 52)) ∧
      applyJitter (F64.fin 100) (roundF64 (1 / 10)) (F64.fin (1 - 1 / 2 ^ 53)) =
        F64.fin (((7740561859543041 : Int) : ℚ) * 2 ^ ((6 : Int) - 52)) ∧
      (100 : ℚ) * (1 + ((7205759403792794 : Int) : ℚ) * 2 ^ ((-4 : Int) - 52)) <
        ((7740561859543041 : Int) : ℚ) * 2 ^ ((6 : Int) - 52) ∧
      F64.mul (F64.fin 100) (F64.add (F64.fin 1) (roundF64 (1 / 10))) =
        F64.fin (((7740561859543041 : Int) : ℚ) * 2 ^ ((6 : Int) - 52)) := by
  have e0 : roundF64 (1 / 10) =
      F64.fin (((7205759403792794 : Int) : ℚ) * 2 ^ ((-4 : Int) - 52)) :=
    roundF64_of_binade (-4) 7205759403792794 (by norm_num) (by norm_num) (by norm_num)
      (by norm_num) (by norm_num [roundHalfEven])
  have hpos : ¬ (F64.fin (((7205759403792794 : Int) : ℚ) * 2 ^ ((-4 : Int) - 52)) ≤ F64.fin 0) := by
    intro h
    have := F64.le_fin_fin.mp h
    norm_num at this
  have e1 : F64.mul (F64.fin (1 - 1 / 2 ^ 53)) (F64.fin 2) =
      F64.fin (((9007199254740991 : Int) : ℚ) * 2 ^ ((0 : Int) - 52)) := by
    rw [F64.mul_fin]
    exact roundF64_of_binade 0 9007199254740991 (by norm_num) (by norm_num) (by norm_num)
      (by norm_num) (by norm_num [roundHalfEven])
  have e2 : F64.sub (F64.fin (((9007199254740991 : Int) : ℚ) * 2 ^ ((0 : Int) - 52)))
      (F64.fin 1) = F64.fin (((9007199254740990 : Int) : ℚ) * 2 ^ ((-1 : Int) - 52)) := by
    rw [F64.sub_fin]
    exact roundF64_of_binade (-1) 9007199254740990 (by norm_num) (by norm_num) (by norm_num)
      (by norm_num) (by norm_num [roundHalfEven])
  have e3 : F64.mul (F64.fin (((9007199254740990 : Int) : ℚ) * 2 ^ ((-1 : Int) - 52)))
      (F64.fin (((7205759403792794 : Int) : ℚ) * 2 ^ ((-4 : Int) - 52))) =
      F64.fin (((7205759403792792 : Int) : ℚ) * 2 ^ ((-4 : Int) - 52)) := by
    rw [F64.mul_fin]
    exact roundF64_of_binade (-4) 7205759403792792 (by norm_num) (by norm_num) (by norm_num)
      (by norm_num) (by norm_num [roundHalfEven])
  have e4 : F64.add (F64.fin 1)
      (F64.fin (((7205759403792792 : Int) : ℚ) * 2 ^ ((-4 : Int) - 52))) =
      F64.fin (((4953959590107546 : Int) : ℚ) * 2 ^ ((0 : Int) - 52)) := by
    rw [F64.add_fin]
    exact roundF64_of_binade 0 4953959590107546 (by norm_num) (by norm_num) (by norm_num)
      (by norm_num) (by norm_num [roundHalfEven])
  have e5 : F64.mul (F64.fin 100)
      (F64.fin (((4953959590107546 : Int) : ℚ) * 2 ^ ((0 : Int) - 52))) =
      F64.fin (((7740561859543041 : Int) : ℚ) * 2 ^ ((6 : Int) - 52)) := by
    rw [F64.mul_fin]
    exact roundF64_of_binade 6 7740561859543041 (by norm_num) (by norm_num) (by norm_num)
      (by norm_num) (by norm_num [roundHalfEven])
  have e6 : F64.add (F64.fin 1)
      (F64.fin (((7205759403792794 : Int) : ℚ) * 2 ^ ((-4 : Int) - 52))) =
      F64.fin (((4953959590107546 : Int) : ℚ) * 2 ^ ((0 : Int) - 52)) := by
    rw [F64.add_fin]
    exact roundF64_of_binade 0 4953959590107546 (by norm_num) (by norm_num) (by norm_num)
      (by norm_num) (by norm_num [roundHalfEven])
  refine ⟨e0, ?_, by norm_num, ?_⟩
  · rw [e0, applyJitter_of_pos _ _ _ hpos, e1, e2, e3, e4, e5]
  · rw [e0, e6, e5]

/-! ## Memory toucher: the loop and its result -/

theorem touchLoop_unfold (m : Mem) (i : Nat) :
    touchLoop m i =
      if i < m.bytes.length then touchLoop ⟨m.bytes.set i 1, m.writes ++ [i]⟩ (i + page)
      else some m := by
  rw [touchLoop]
  by_cases h : i < m.bytes.length
  · simp only [if_pos h]
    have hs : m.store i 1 = some ⟨m.bytes.set i 1, m.writes ++ [i]⟩ := by
      simp [Mem.store, h]
    split
    · rename_i h1
      rw [hs] at h1
      cases h1
    · rename_i m' h1
      rw [hs] at h1
      cases h1
      rfl
  · simp only [if_neg h]

/-- The page loop entered at a page-aligned index `i` returns, keeps the length, and stores 1
exactly at the page-aligned offsets from `i` on. -/
theorem touchLoop_spec (n : Nat) : ∀ (m : Mem) (i : Nat), m.bytes.length - i = n →
    i % page = 0 →
    ∃ m', touchLoop m i = some m' ∧ m'.bytes.length = m.bytes.length ∧
      ∀ j, m'.bytes[j]? =
        if i ≤ j ∧ j % page = 0 ∧ j < m.bytes.length then some 1 else m.bytes[j]? := by
  induction n using Nat.strong_induction_on with
  | _ n ih =>
    intro m i hn hi
    rw [touchLoop_unfold]
    by_cases h : i < m.bytes.length
    · rw [if_pos h]
      have hlen : (m.bytes.set i 1).length = m.bytes.length := List.length_set _ _ _
      obtain ⟨m', h1, h2, h3⟩ := ih ((m.bytes.set i 1).length - (i + page))
        (by rw [hlen]; simp only [page]; omega) ⟨m.bytes.set i 1, m.writes ++ [i]⟩ (i + page) rfl
        (by simp only [page] at hi ⊢; omega)
      refine ⟨m', h1, by rw [h2, hlen], ?_⟩
      intro j
      rw [h3 j]
      simp only [hlen, List.getElem?_set]
      simp only [page] at hi ⊢
      by_cases hij : i = j
      · subst hij
        have e1 : ¬ (i + 4096 ≤ i ∧ i % 4096 = 0 ∧ i < m.bytes.length) := by omega
        have e2 : (i ≤ i ∧ i % 4096 = 0 ∧ i < m.bytes.length) := ⟨le_refl i, hi, h⟩
        rw [if_neg e1, if_pos e2, if_pos rfl, if_pos h]
      · rw [if_neg hij]
        by_cases hc : i + 4096 ≤ j ∧ j % 4096 = 0 ∧ j < m.bytes.length
        · have e2 : (i ≤ j ∧ j % 4096 = 0 ∧ j < m.bytes.length) := by omega
          rw [if_pos hc, if_pos e2]
        · have e2 : ¬ (i ≤ j ∧ j % 4096 = 0 ∧ j < m.bytes.length) := by omega
          rw [if_neg hc, if_neg e2]
    · rw [if_neg h]
      refine ⟨m, rfl, rfl, ?_⟩
      intro j
      have e : ¬ (i ≤ j ∧ j % page = 0 ∧ j < m.bytes.length) := by omega
      rw [if_neg e]

/-- The call `touchPages b` returns, keeps the length, and leaves 1 at the page-aligned
offsets and at the last offset, and the old byte everywhere else. -/
theorem touchPages_spec (b : List UInt8) :
    ∃ m, touchPages b = some m ∧ m.bytes.length = b.length ∧
      ∀ j, m.bytes[j]? =
        if j < b.length ∧ (j % page = 0 ∨ j + 1 = b.length) then some 1 else b[j]? := by
  obtain ⟨m', h1, h2, h3⟩ := touchLoop_spec (b.length - 0) ⟨b, []⟩ 0 rfl (by simp)
  simp only at h2 h3
  unfold touchPages
  rw [h1]
  simp only
  by_cases hpos : m'.bytes.length > 0
  · rw [if_pos hpos]
    have hlt : m'.bytes.length - 1 < m'.bytes.length := by omega
    refine ⟨⟨m'.bytes.set (m'.bytes.length - 1) 1, m'.writes ++ [m'.bytes.length - 1]⟩, ?_, ?_, ?_⟩
    · simp [Mem.store, hlt]
    · simp only [List.length_set]
      exact h2
    · intro j
      simp only [List.getElem?_set, h3 j, h2]
      by_cases hj : b.length - 1 = j
      · have e : j < b.length ∧ (j % page = 0 ∨ j + 1 = b.length) := by omega
        rw [if_pos hj, if_pos e, if_pos (by omega)]
      · rw [if_neg hj]
        by_cases hc : 0 ≤ j ∧ j % page = 0 ∧ j < b.length
        · rw [if_pos hc, if_pos (by omega)]
        · rw [if_neg hc, if_neg (by omega)]
  · rw [if_neg hpos]
    refine ⟨m', rfl, h2, ?_⟩
    intro j
    rw [h3 j]
    have e1 : ¬ (0 ≤ j ∧ j % page = 0 ∧ j < b.length) := by omega
    have e2 : ¬ (j < b.length ∧ (j % page = 0 ∨ j + 1 = b.length)) := by omega
    rw [if_neg e1, if_neg e2]

/-! ## CPU load scheduler: the slices of a call -/

theorem nextSlice_win (percent : F64) (total window elapsed : Int) :
    (nextSlice percent total window elapsed).win =
      if total - elapsed < window then total - elapsed else window := rfl

/-- The slices the loop runs through when `n` passes remain from `elapsed` on. -/
theorem slices_succ (percent : F64) (total window elapsed : Int) (n : Nat) :
    (List.range (n + 1)).map
        (fun (k : Nat) => nextSlice percent total window (elapsed + (k : Int) * window)) =
      nextSlice percent total window elapsed ::
        (List.range n).map
          (fun (k : Nat) =>
            nextSlice percent total window (elapsed + window + (k : Int) * window)) := by
  rw [List.range_succ_eq_map, List.map_cons, List.map_map]
  congr 1
  · simp
  · apply List.map_congr_left
    intro k _
    simp only [Function.comp]
    congr 1
    push_cast
    ring

/-- The slice loop, entered at `elapsed ≤ total` with a positive window and enough fuel,
returns after `n` passes, where `n` is the number of windows needed to cover what remains;
pass `k` starts at `elapsed + k * window`. -/
theorem sliceLoop_eq (percent : F64) (total window : Int) (hw : 0 < window) :
    ∀ (n fuel : Nat) (elapsed : Int), n < fuel → elapsed ≤ total →
      total - elapsed ≤ (n : Int) * window → (n : Int) * window < total - elapsed + window →
      sliceLoop percent total window fuel elapsed =
        some ((List.range n).map
          (fun (k : Nat) => nextSlice percent total window (elapsed + (k : Int) * window))) := by
  intro n
  induction n with
  | zero =>
    intro fuel elapsed hf _ h1 _
    obtain ⟨f, rfl⟩ : ∃ f, fuel = f + 1 := ⟨fuel - 1, by omega⟩
    have hge : ¬ elapsed < total := by
      simp only [Nat.cast_zero, zero_mul] at h1
      omega
    simp [sliceLoop, hge]
  | succ n ih =>
    intro fuel elapsed hf he h1 h2
    obtain ⟨f, rfl⟩ : ∃ f, fuel = f + 1 := ⟨fuel - 1, by omega⟩
    have hcast : ((n + 1 : Nat) : Int) * window = (n : Int) * window + window := by
      push_cast
      ring
    rw [hcast] at h1 h2
    have hnn : (0 : Int) ≤ (n : Int) * window :=
      mul_nonneg (Int.ofNat_nonneg n) (le_of_lt hw)
    have hlt : elapsed < total := by omega
    have hwin : (nextSlice percent total window elapsed).win =
        if total - elapsed < window then total - elapsed else window := rfl
    have hrec := ih f (elapsed + (nextSlice percent total window elapsed).win) (by omega)
      (by rw [hwin]; split <;> omega) (by rw [hwin]; split <;> omega)
      (by rw [hwin]; split <;> omega)
    simp only [sliceLoop, if_pos hlt, hrec]
    rw [slices_succ]
    by_cases hn : n = 0
    · subst hn
      simp
    · have hwin2 : (nextSlice percent total window elapsed).win = window := by
        rw [hwin, if_neg]
        have : (1 : Int) ≤ (n : Int) := by omega
        nlinarith
      rw [hwin2]

/-- The slices of `sliceLoop_eq` add up to what remained when the loop was entered. -/
theorem sum_win_eq (percent : F64) (total window : Int) (hw : 0 < window) :
    ∀ (n : Nat) (elapsed : Int), elapsed ≤ total →
      total - elapsed ≤ (n : Int) * window → (n : Int) * window < total - elapsed + window →
      (((List.range n).map
          (fun (k : Nat) => nextSlice percent total window (elapsed + (k : Int) * window))).map
        Slice.win).sum = total - elapsed := by
  intro n
  induction n with
  | zero =>
    intro elapsed he h1 _
    simp only [Nat.cast_zero, zero_mul] at h1
    simp
    omega
  | succ n ih =>
    intro elapsed he h1 h2
    have hcast : ((n + 1 : Nat) : Int) * window = (n : Int) * window + window := by
      push_cast
      ring
    rw [hcast] at h1 h2
    have hnn : (0 : Int) ≤ (n : Int) * window :=
      mul_nonneg (Int.ofNat_nonneg n) (le_of_lt hw)
    rw [slices_succ, List.map_cons, List.sum_cons, nextSlice_win]
    by_cases hn : total - elapsed < window
    · have hn0 : n = 0 := by
        by_contra hne
        have : (1 : Int) ≤ (n : Int) := by omega
        nlinarith
      subst hn0
      simp [hn]
    · rw [if_neg hn, ih (elapsed + window) (by omega) (by omega) (by omega)]
      ring

theorem window_pos {total : Int} (ht : 0 < total) : 0 < window total := by
  unfold window millisecond
  split <;> omega

/-- Number of slices and their bounds: `n = ⌈total / 10 ms⌉` windows cover `total`, and
`n - 1` windows do not. -/
theorem sliceCount_bounds {total : Int} (ht : 0 < total) :
    ((total + 9999999) / 10000000).toNat < total.toNat + 1 ∧
      total ≤ (((total + 9999999) / 10000000).toNat : Int) * window total ∧
      (((total + 9999999) / 10000000).toNat : Int) * window total < total + window total := by
  unfold window millisecond
  by_cases h : total < 10 * 1000000
  · have hn : ((total + 9999999) / 10000000).toNat = 1 := by omega
    rw [if_pos h, hn]
    refine ⟨by omega, ?_, ?_⟩
    · simp
    · simp only [Nat.cast_one, one_mul]
      omega
  · rw [if_neg h]
    have hc : ((((total + 9999999) / 10000000).toNat : Nat) : Int) =
        (total + 9999999) / 10000000 := Int.toNat_of_nonneg (by omega)
    rw [hc]
    refine ⟨by omega, by omega, by omega⟩

/-- For `total > 0` the slice loop of `cpuLoadForDuration` returns: it makes
`⌈total / 10 ms⌉` passes, pass `k` entered with `elapsed = k * window`. -/
theorem cpuLoadSlices_eq (percent : F64) {total : Int} (ht : 0 < total) :
    cpuLoadSlices percent total =
      some ((List.range ((total + 9999999) / 10000000).toNat).map
        (fun (k : Nat) => nextSlice percent total (window total) ((k : Int) * window total))) := by
  obtain ⟨h1, h2, h3⟩ := sliceCount_bounds ht
  unfold cpuLoadSlices
  rw [sliceLoop_eq percent total (window total) (window_pos ht) _ _ 0 h1 (le_of_lt ht)
    (by simpa using h2) (by simpa using h3)]
  simp

/-- Every slice of the loop starts before `total`. -/
theorem slice_start_lt {total : Int} (ht : 0 < total) {k : Nat}
    (hk : k < ((total + 9999999) / 10000000).toNat) : (k : Int) * window total < total := by
  obtain ⟨_, _, h3⟩ := sliceCount_bounds ht
  have hw := window_pos ht
  have hk1 : (k : Int) + 1 ≤ (((total + 9999999) / 10000000).toNat : Int) := by
    exact_mod_cast hk
  have := mul_le_mul_of_nonneg_right hk1 (le_of_lt hw)
  linarith

/-- The actions of a slice with `0 ≤ busy ≤ win` last exactly `win`. -/
theorem planned_actions (s : Slice) (h0 : 0 ≤ s.busy) (h1 : s.busy ≤ s.win)
    (hi : s.idle = s.win - s.busy) : planned s.actions = s.win := by
  unfold planned Slice.actions
  by_cases hb : s.busy > 0 <;> by_cases hd : s.idle > 0 <;>
    simp [hb, hd, Action.duration] <;> omega

theorem planned_flatMap (ss : List Slice) (h : ∀ s ∈ ss, planned s.actions = s.win) :
    planned (ss.flatMap Slice.actions) = (ss.map Slice.win).sum := by
  induction ss with
  | nil => simp [planned]
  | cons s rest ih =>
    have hs := h s (List.mem_cons_self s rest)
    have hr := ih (fun t ht => h t (List.mem_cons_of_mem s ht))
    unfold planned at hs hr ⊢
    simp only [List.flatMap_cons, List.map_append, List.sum_append, List.map_cons, List.sum_cons]
    rw [hs, hr]

/-! ## CPU load scheduler: the busy part of a slice -/

theorem nextSlice_busy (percent : F64) (total window elapsed : Int) :
    (nextSlice percent total window elapsed).busy =
      F64.toInt (F64.mul (F64.ofInt (nextSlice percent total window elapsed).win)
        (F64.div percent (F64.fin 100))) := rfl

theorem nextSlice_idle (percent : F64) (total window elapsed : Int) :
    (nextSlice percent total window elapsed).idle =
      wrapInt64 ((nextSlice percent total window elapsed).win -
        (nextSlice percent total window elapsed).busy) := rfl

/-- A finite result of rounding is the rounded rational. -/
theorem eq_roundQ_of_roundF64 {q r : ℚ} (h : roundF64 q = F64.fin r) : r = roundQ q := by
  unfold roundF64 F64.ofRat at h
  by_cases h1 : F64.huge ≤ roundQ q
  · rw [if_pos h1] at h
    exact F64.noConfusion h
  · rw [if_neg h1] at h
    by_cases h2 : roundQ q ≤ -F64.huge
    · rw [if_pos h2] at h
      exact F64.noConfusion h
    · rw [if_neg h2] at h
      exact (F64.fin.inj h).symm

/-- Rounding error of a positive value below `2 ^ k`. -/
theorem abs_roundQ_sub_le_of_lt {q : ℚ} {k : Int} (h0 : 0 ≤ q) (h : q < (2 : ℚ) ^ k)
    (hk : -1021 ≤ k) : |roundQ q - q| ≤ (2 : ℚ) ^ (k - 54) := by
  rcases eq_or_lt_of_le h0 with hq0 | hqpos
  · rw [← hq0, roundQ_zero, sub_zero, abs_zero]
    exact le_of_lt (two_zpow_pos _)
  have herr := abs_roundQ_sub_le q
  rw [abs_of_pos hqpos] at herr
  have hu := ulpExp_le_of_lt hqpos h hk
  have h2 : (2 : ℚ) ^ ulpExp q / 2 ≤ (2 : ℚ) ^ (k - 54) := by
    have e : (2 : ℚ) ^ (k - 54) = 2 ^ (k - 53) / 2 := by
      rw [show k - 53 = (k - 54) + 1 by ring, two_zpow_add]
      norm_num
    rw [e]
    exact div_le_div_of_nonneg_right (two_zpow_le hu) (by norm_num)
  exact le_trans herr h2

/-- The float64 product `float64(win) * (percent / 100.0)` for a percentage strictly between
0 and 100 and a slice of at most 10 ms: a finite value between 0 and `win`, within `2 ^ -29`
of the exact `win * percent / 100`; its conversion to a duration is its floor. -/
theorem busy_facts {p : ℚ} {win : Int} (hp0 : 0 < p) (hp1 : p < 100) (hw0 : 0 ≤ win)
    (hw1 : win ≤ 10000000) :
    ∃ y, F64.mul (F64.ofInt win) (F64.div (F64.fin p) (F64.fin 100)) = F64.fin y ∧
      0 ≤ y ∧ y ≤ (win : ℚ) ∧ |y - (win : ℚ) * p / 100| ≤ (2 : ℚ) ^ (-29 : Int) ∧
      F64.toInt (F64.fin y) = ⌊y⌋ ∧ 0 ≤ ⌊y⌋ ∧ ⌊y⌋ ≤ win := by
  have hwq0 : (0 : ℚ) ≤ (win : ℚ) := by exact_mod_cast hw0
  have hwq1 : (win : ℚ) ≤ 10000000 := by exact_mod_cast hw1
  have hwin : F64.ofInt win = F64.fin (win : ℚ) := F64.ofInt_eq (by
    rw [abs_of_nonneg hw0]
    omega)
  obtain ⟨f, hf, hf0, hf1⟩ := roundF64_mem (q := p / 100) (a := 0) (b := 1)
    (roundF64_int 0 (by norm_num) _ (by norm_num))
    (roundF64_int 1 (by norm_num) _ (by norm_num)) (by positivity)
    (by rw [div_le_one (by norm_num)]; exact le_of_lt hp1)
  obtain ⟨y, hy, hy0, hy1⟩ := roundF64_mem (q := (win : ℚ) * f) (a := 0) (b := (win : ℚ))
    (roundF64_int 0 (by norm_num) _ (by norm_num))
    (roundF64_intCast (by rw [abs_of_nonneg hw0]; omega))
    (mul_nonneg hwq0 hf0) (by nlinarith)
  -- the two rounding errors
  have ef : |f - p / 100| ≤ (2 : ℚ) ^ (-54 : Int) := by
    rw [eq_roundQ_of_roundF64 hf]
    have := abs_roundQ_sub_le_of_lt (q := p / 100) (k := 0) (by positivity)
      (by rw [zpow_zero, div_lt_one (by norm_num)]; exact hp1) (by norm_num)
    simpa using this
  have ey : |y - (win : ℚ) * f| ≤ (2 : ℚ) ^ (-30 : Int) := by
    rw [eq_roundQ_of_roundF64 hy]
    have hlt : (win : ℚ) * f < (2 : ℚ) ^ (24 : Int) := by
      have : (win : ℚ) * f ≤ 10000000 := by nlinarith
      have e : (2 : ℚ) ^ (24 : Int) = 16777216 := by norm_num
      rw [e]
      linarith
    have := abs_roundQ_sub_le_of_lt (q := (win : ℚ) * f) (k := 24) (mul_nonneg hwq0 hf0)
      hlt (by norm_num)
    simpa using this
  have etot : |y - (win : ℚ) * p / 100| ≤ (2 : ℚ) ^ (-29 : Int) := by
    have e1 : y - (win : ℚ) * p / 100 = (y - (win : ℚ) * f) + (win : ℚ) * (f - p / 100) := by
      ring
    have e2 : |(win : ℚ) * (f - p / 100)| ≤ 10000000 * (2 : ℚ) ^ (-54 : Int) := by
      rw [abs_mul, abs_of_nonneg hwq0]
      exact mul_le_mul hwq1 ef (abs_nonneg _) (by norm_num)
    have e3 : (2 : ℚ) ^ (-30 : Int) + 10000000 * (2 : ℚ) ^ (-54 : Int) ≤ (2 : ℚ) ^ (-29 : Int) := by
      norm_num
    rw [e1]
    exact le_trans (abs_add _ _) (le_trans (add_le_add ey e2) e3)
  obtain ⟨t1, t2, t3⟩ := F64.toInt_fin_of_mem (n := win) hy0 hy1 (by omega)
  rw [hwin, F64.div_fin _ _ (by norm_num), hf, F64.mul_fin, hy]
  exact ⟨y, rfl, hy0, hy1, etot, t1, t2, t3⟩

theorem window_le (total : Int) : window total ≤ 10000000 := by
  unfold window millisecond
  split <;> omega

/-- A percentage strictly between 0 and 100 is a finite value. -/
theorem percent_eq_fin {percent : F64} (hp0 : F64.fin 0 < percent) (hp1 : percent < F64.fin 100) :
    ∃ p, percent = F64.fin p ∧ 0 < p ∧ p < 100 :=
  F64.eq_fin_of_lt_of_lt hp0 hp1

/-- A slice entered before `total` with a positive window of at most 10 ms has a positive
length of at most one window, and for a percentage strictly between 0 and 100 its busy part
lies between 0 and its length and its idle part is the rest. -/
theorem nextSlice_facts {percent : F64} (hp0 : F64.fin 0 < percent) (hp1 : percent < F64.fin 100)
    {total window elapsed : Int} (hw : 0 < window) (hw1 : window ≤ 10000000)
    (he : elapsed < total) :
    0 < (nextSlice percent total window elapsed).win ∧
      (nextSlice percent total window elapsed).win ≤ window ∧
      0 ≤ (nextSlice percent total window elapsed).busy ∧
      (nextSlice percent total window elapsed).busy ≤
        (nextSlice percent total window elapsed).win ∧
      (nextSlice percent total window elapsed).idle =
        (nextSlice percent total window elapsed).win -
          (nextSlice percent total window elapsed).busy := by
  obtain ⟨p, rfl, hp0', hp1'⟩ := percent_eq_fin hp0 hp1
  have hwin : 0 < (nextSlice (F64.fin p) total window elapsed).win ∧
      (nextSlice (F64.fin p) total window elapsed).win ≤ window := by
    rw [nextSlice_win]
    split <;> omega
  obtain ⟨y, hy, _, _, _, t1, t2, t3⟩ :=
    busy_facts hp0' hp1' (le_of_lt hwin.1) (le_trans hwin.2 hw1)
  have hb : (nextSlice (F64.fin p) total window elapsed).busy = ⌊y⌋ := by
    rw [nextSlice_busy, hy, t1]
  refine ⟨hwin.1, hwin.2, by rw [hb]; exact t2, by rw [hb]; exact t3, ?_⟩
  rw [nextSlice_idle, hb]
  exact wrapInt64_of_mem (by omega) (by omega)

/-! ## CPU load scheduler: the whole call -/

theorem F64.not_le_of_lt {x y : F64} (h : x < y) : ¬ y ≤ x :=
  fun h2 => F64.not_lt_of_le h2 h

/-- Past the guards the schedule is the concatenation of the actions of the slices. -/
theorem cpuLoadForDuration_mid {percent : F64} (hp0 : ¬ percent ≤ F64.fin 0)
    (hp1 : ¬ percent ≥ F64.fin 100) {total : Int} (ht : 0 < total) :
    cpuLoadForDuration percent total =
      some (((List.range ((total + 9999999) / 10000000).toNat).map
        (fun (k : Nat) =>
          nextSlice percent total (window total) ((k : Int) * window total))).flatMap
        Slice.actions) := by
  unfold cpuLoadForDuration
  rw [if_neg (not_le.mpr ht), if_neg hp0, if_neg hp1, cpuLoadSlices_eq percent ht]

/-- The scheduler returns for every input. -/
theorem cpuLoadForDuration_returns (percent : F64) (total : Int) :
    ∃ acts, cpuLoadForDuration percent total = some acts := by
  by_cases ht : total ≤ 0
  · exact ⟨[], by unfold cpuLoadForDuration; rw [if_pos ht]⟩
  · by_cases hp0 : percent ≤ F64.fin 0
    · exact ⟨[Action.sleep total], by unfold cpuLoadForDuration; rw [if_neg ht, if_pos hp0]⟩
    · by_cases hp1 : percent ≥ F64.fin 100
      · exact ⟨[Action.busyFor total], by
          unfold cpuLoadForDuration; rw [if_neg ht, if_neg hp0, if_pos hp1]⟩
      · exact ⟨_, cpuLoadForDuration_mid hp0 hp1 (not_le.mp ht)⟩

/-- C6: for a percentage in `[0, 100]` and `total > 0` the scheduler returns, and the lengths
of the busy and sleep actions it performed add up to exactly `total`. -/
theorem cpuLoadForDuration_planned_total (percent : F64) (total : Int)
    (hp0 : F64.fin 0 ≤ percent) (hp1 : percent ≤ F64.fin 100) (ht : 0 < total) :
    ∃ acts, cpuLoadForDuration percent total = some acts ∧ planned acts = total := by
  by_cases h0 : percent ≤ F64.fin 0
  · refine ⟨[Action.sleep total], ?_, ?_⟩
    · unfold cpuLoadForDuration
      rw [if_neg (not_le.mpr ht), if_pos h0]
    · simp [planned, Action.duration]
  · by_cases h1 : percent ≥ F64.fin 100
    · refine ⟨[Action.busyFor total], ?_, ?_⟩
      · unfold cpuLoadForDuration
        rw [if_neg (not_le.mpr ht), if_neg h0, if_pos h1]
      · simp [planned, Action.duration]
    · obtain ⟨p, hp, hp0q, hp1q⟩ := F64.eq_fin_of_mem hp0 hp1
      have hp0' : F64.fin 0 < percent := by
        rw [hp] at h0 ⊢
        exact F64.lt_fin_fin.mpr (not_le.mp (fun h => h0 (F64.le_fin_fin.mpr h)))
      have hp1' : percent < F64.fin 100 := by
        rw [hp] at h1 ⊢
        exact F64.lt_fin_fin.mpr (not_le.mp (fun h => h1 (F64.le_fin_fin.mpr h)))
      refine ⟨_, cpuLoadForDuration_mid h0 h1 ht, ?_⟩
      obtain ⟨_, h2, h3⟩ := sliceCount_bounds ht
      have hsum := sum_win_eq percent total (window total) (window_pos ht)
        ((total + 9999999) / 10000000).toNat 0 (le_of_lt ht)
        (by rw [sub_zero]; exact h2) (by rw [sub_zero]; exact h3)
      simp only [zero_add, sub_zero] at hsum
      rw [planned_flatMap, hsum]
      · intro s hs
        rw [List.mem_map] at hs
        obtain ⟨k, hk, rfl⟩ := hs
        rw [List.mem_range] at hk
        have hf := nextSlice_facts hp0' hp1' (window_pos ht) (window_le total)
          (slice_start_lt ht hk)
        exact planned_actions _ hf.2.2.1 hf.2.2.2.1 hf.2.2.2.2

theorem cpuLoadForDuration_planned_total_witness :
    (F64.fin 0 ≤ F64.fin 37 ∧ F64.fin 37 ≤ F64.fin 100 ∧ (0 : Int) < 25000007) ∧
      ∃ acts, cpuLoadForDuration (F64.fin 37) 25000007 = some acts ∧ planned acts = 25000007 :=
  ⟨⟨F64.le_fin_fin.mpr (by norm_num), F64.le_fin_fin.mpr (by norm_num), by norm_num⟩,
    cpuLoadForDuration_planned_total (F64.fin 37) 25000007 (F64.le_fin_fin.mpr (by norm_num))
      (F64.le_fin_fin.mpr (by norm_num)) (by norm_num)⟩

/-- C7: for `total > 0`, a percentage `≤ 0` gives exactly one sleep of length `total` and no
busy work, and a percentage `≥ 100` gives exactly one `busyFor` of length `total` and no
sleep. -/
theorem cpuLoadForDuration_extremes (percent : F64) (total : Int) (ht : 0 < total) :
    (percent ≤ F64.fin 0 → cpuLoadForDuration percent total = some [Action.sleep total]) ∧
      (percent ≥ F64.fin 100 →
        cpuLoadForDuration percent total = some [Action.busyFor total]) := by
  constructor
  · intro hp
    unfold cpuLoadForDuration
    rw [if_neg (not_le.mpr ht), if_pos hp]
  · intro hp
    have hp0 : ¬ percent ≤ F64.fin 0 := by
      intro h
      have h2 : F64.fin 100 ≤ F64.fin 0 := F64.le_chain hp h
      have := F64.le_fin_fin.mp h2
      norm_num at this
    unfold cpuLoadForDuration
    rw [if_neg (not_le.mpr ht), if_neg hp0, if_pos hp]

theorem cpuLoadForDuration_extremes_witness :
    ((0 : Int) < 50000000) ∧
      cpuLoadForDuration (F64.fin 0) 50000000 = some [Action.sleep 50000000] ∧
      cpuLoadForDuration (F64.fin (-3)) 50000000 = some [Action.sleep 50000000] ∧
      cpuLoadForDuration (F64.fin 100) 50000000 = some [Action.busyFor 50000000] ∧
      cpuLoadForDuration (F64.fin 250) 50000000 = some [Action.busyFor 50000000] ∧
      cpuLoadForDuration F64.posInf 50000000 = some [Action.busyFor 50000000] :=
  ⟨by norm_num,
    (cpuLoadForDuration_extremes (F64.fin 0) 50000000 (by norm_num)).1
      (F64.le_fin_fin.mpr (by norm_num)),
    (cpuLoadForDuration_extremes (F64.fin (-3)) 50000000 (by norm_num)).1
      (F64.le_fin_fin.mpr (by norm_num)),
    (cpuLoadForDuration_extremes (F64.fin 100) 50000000 (by norm_num)).2
      (F64.le_fin_fin.mpr (by norm_num)),
    (cpuLoadForDuration_extremes (F64.fin 250) 50000000 (by norm_num)).2
      (F64.le_fin_fin.mpr (by norm_num)),
    (cpuLoadForDuration_extremes F64.posInf 50000000 (by norm_num)).2 True.intro⟩

/-- C8: for `total ≤ 0` the scheduler returns at once, with no busy work and no sleep,
whatever the percentage. -/
theorem cpuLoadForDuration_of_total_nonpos (percent : F64) (total : Int) (ht : total ≤ 0) :
    cpuLoadForDuration percent total = some [] := by
  unfold cpuLoadForDuration
  rw [if_pos ht]

theorem cpuLoadForDuration_of_total_nonpos_witness :
    ((0 : Int) ≤ 0 ∧ (-7 : Int) ≤ 0) ∧
      cpuLoadForDuration (F64.fin 50) 0 = some [] ∧
      cpuLoadForDuration (F64.fin 0) (-7) = some [] ∧
      cpuLoadForDuration (F64.fin 100) 0 = some [] ∧
      cpuLoadForDuration F64.nan 0 = some [] :=
  ⟨by norm_num, cpuLoadForDuration_of_total_nonpos (F64.fin 50) 0 (by norm_num),
    cpuLoadForDuration_of_total_nonpos (F64.fin 0) (-7) (by norm_num),
    cpuLoadForDuration_of_total_nonpos (F64.fin 100) 0 (by norm_num),
    cpuLoadForDuration_of_total_nonpos F64.nan 0 (by norm_num)⟩

/-! ## Half load over whole windows -/

theorem F64.toInt_intCast (n : Int) (h0 : -2 ^ 63 ≤ n) (h1 : n < 2 ^ 63) :
    F64.toInt (F64.fin (n : ℚ)) = n := by
  unfold F64.toInt
  simp only [truncToInt_intCast]
  rw [if_pos ⟨h0, h1⟩]

/-- At 50 percent every operation is exact: `50 / 100.0` is `0.5` and `1e7 * 0.5` is
`5e6`. -/
theorem half_busy :
    F64.toInt (F64.mul (F64.ofInt 10000000) (F64.div (F64.fin 50) (F64.fin 100))) = 5000000 := by
  have e1 : F64.ofInt 10000000 = F64.fin 10000000 :=
    roundF64_eq 10000000 (by norm_num) _ _ (by norm_num) (by norm_num)
  have e2 : F64.div (F64.fin 50) (F64.fin 100) = F64.fin (1 / 2) := by
    rw [F64.div_fin _ _ (by norm_num), show (50 : ℚ) / 100 = 1 / 2 by norm_num]
    exact roundF64_half
  have e3 : F64.mul (F64.fin 10000000) (F64.fin (1 / 2)) = F64.fin ((5000000 : Int) : ℚ) :=
    roundF64_eq 5000000 (by norm_num) _ _ (by norm_num) (by norm_num)
  rw [e1, e2, e3]
  exact F64.toInt_intCast 5000000 (by norm_num) (by norm_num)

theorem flatMap_replicate_actions (k : Nat) (s : Slice) :
    (List.replicate k s).flatMap Slice.actions = (List.replicate k s.actions).flatten := by
  induction k with
  | zero => simp
  | succ k ih => simp [List.replicate_succ, ih]

/-- C10: at 50 percent and a total of `k ≥ 1` whole windows of 10 ms the loop makes exactly
`k` passes, each with `win` = 10 ms and `busy` = `idle` = 5 ms, so the schedule is `k` times
a `busyFor` of 5 ms followed by a sleep of 5 ms. -/
theorem cpuLoadForDuration_half (k : Nat) (hk : 0 < k) :
    cpuLoadSlices (F64.fin 50) ((k : Int) * (10 * millisecond)) =
        some (List.replicate k ⟨10000000, 5000000, 5000000⟩) ∧
      cpuLoadForDuration (F64.fin 50) ((k : Int) * (10 * millisecond)) =
        some (List.replicate k [Action.busyFor 5000000, Action.sleep 5000000]).flatten := by
  have hk1 : (1 : Int) ≤ (k : Int) := by exact_mod_cast hk
  have ht : (0 : Int) < (k : Int) * (10 * millisecond) := by
    unfold millisecond
    omega
  have hn : (((k : Int) * (10 * millisecond) + 9999999) / 10000000).toNat = k := by
    unfold millisecond
    omega
  have hw : window ((k : Int) * (10 * millisecond)) = 10000000 := by
    unfold window millisecond
    rw [if_neg (by omega)]
    norm_num
  have hs : cpuLoadSlices (F64.fin 50) ((k : Int) * (10 * millisecond)) =
      some (List.replicate k ⟨10000000, 5000000, 5000000⟩) := by
    rw [cpuLoadSlices_eq (F64.fin 50) ht, hn, hw]
    refine congrArg some ?_
    rw [List.eq_replicate_iff]
    refine ⟨by simp, ?_⟩
    intro s hs
    rw [List.mem_map] at hs
    obtain ⟨j, hj, rfl⟩ := hs
    rw [List.mem_range] at hj
    have hwin : (nextSlice (F64.fin 50) ((k : Int) * (10 * millisecond)) 10000000
        ((j : Int) * 10000000)).win = 10000000 := by
      rw [nextSlice_win, if_neg]
      unfold millisecond
      omega
    have hbusy := nextSlice_busy (F64.fin 50) ((k : Int) * (10 * millisecond)) 10000000
      ((j : Int) * 10000000)
    have hidle := nextSlice_idle (F64.fin 50) ((k : Int) * (10 * millisecond)) 10000000
      ((j : Int) * 10000000)
    rw [hwin, half_busy] at hbusy
    rw [hwin, hbusy, wrapInt64_of_mem (by norm_num) (by norm_num)] at hidle
    cases hns : nextSlice (F64.fin 50) ((k : Int) * (10 * millisecond)) 10000000
      ((j : Int) * 10000000)
    rw [hns] at hwin hbusy hidle
    simp only at hwin hbusy hidle
    rw [hwin, hbusy, hidle]
    norm_num
  refine ⟨hs, ?_⟩
  have hg0 : ¬ (F64.fin 50 ≤ F64.fin 0) := by
    intro h
    have := F64.le_fin_fin.mp h
    norm_num at this
  have hg1 : ¬ (F64.fin 50 ≥ F64.fin 100) := by
    intro h
    have := F64.le_fin_fin.mp h
    norm_num at this
  unfold cpuLoadForDuration
  rw [if_neg (not_le.mpr ht), if_neg hg0, if_neg hg1, hs]
  have hact : Slice.actions ⟨10000000, 5000000, 5000000⟩ =
      [Action.busyFor 5000000, Action.sleep 5000000] := by
    simp [Slice.actions]
  simp only [flatMap_replicate_actions, hact]

theorem cpuLoadForDuration_half_witness :
    (0 < 10) ∧
      cpuLoadSlices (F64.fin 50) 100000000 =
        some (List.replicate 10 ⟨10000000, 5000000, 5000000⟩) ∧
      cpuLoadForDuration (F64.fin 50) 100000000 =
        some [Action.busyFor 5000000, Action.sleep 5000000,
          Action.busyFor 5000000, Action.sleep 5000000,
          Action.busyFor 5000000, Action.sleep 5000000,
          Action.busyFor 5000000, Action.sleep 5000000,
          Action.busyFor 5000000, Action.sleep 5000000,
          Action.busyFor 5000000, Action.sleep 5000000,
          Action.busyFor 5000000, Action.sleep 5000000,
          Action.busyFor 5000000, Action.sleep 5000000,
          Action.busyFor 5000000, Action.sleep 5000000,
          Action.busyFor 5000000, Action.sleep 5000000] := by
  have h := cpuLoadForDuration_half 10 (by decide)
  have e : ((10 : Nat) : Int) * (10 * millisecond) = 100000000 := by
    norm_num [millisecond]
  rw [e] at h
  exact ⟨by decide, h.1, h.2⟩

/-! ## CPU load scheduler: slices by index, busy time -/

/-- Entry `k` of the list of slices is the slice computed at `elapsed = k * window`. -/
theorem slices_getElem? (percent : F64) (total : Int) (n k : Nat) (s : Slice)
    (h : ((List.range n).map
      (fun (j : Nat) => nextSlice percent total (window total) ((j : Int) * window total)))[k]? =
        some s) :
    k < n ∧ s = nextSlice percent total (window total) ((k : Int) * window total) := by
  rw [List.getElem?_map] at h
  by_cases hk : k < n
  · rw [List.getElem?_range hk] at h
    simp only [Option.map_some'] at h
    exact ⟨hk, (Option.some.inj h).symm⟩
  · rw [List.getElem?_eq_none (by simp; omega)] at h
    simp at h

/-- The busy time of the actions of a slice with `0 ≤ busy` is `busy`. -/
theorem busyTime_actions (s : Slice) (h0 : 0 ≤ s.busy) : busyTime s.actions = s.busy := by
  unfold busyTime Slice.actions
  by_cases hb : s.busy > 0 <;> by_cases hd : s.idle > 0 <;>
    simp [hb, hd, Action.busy] <;> omega

theorem busyTime_flatMap (ss : List Slice) (h : ∀ s ∈ ss, 0 ≤ s.busy) :
    busyTime (ss.flatMap Slice.actions) = (ss.map Slice.busy).sum := by
  induction ss with
  | nil => simp [busyTime]
  | cons s rest ih =>
    have hs := busyTime_actions s (h s (List.mem_cons_self s rest))
    have hr := ih (fun t ht => h t (List.mem_cons_of_mem s ht))
    unfold busyTime at hs hr ⊢
    simp only [List.flatMap_cons, List.map_append, List.sum_append, List.map_cons, List.sum_cons]
    rw [hs, hr]

/-- C12: for `total > 0` and a percentage strictly between 0 and 100 the slice loop returns
after exactly `n = ⌈total / 10 ms⌉` passes; every slice but the last is 10 ms long, and the
last is `total - 10 ms * (n - 1)` long, which is positive and at most 10 ms. -/
theorem cpuLoadSlices_lengths (percent : F64) (total : Int) (hp0 : F64.fin 0 < percent)
    (hp1 : percent < F64.fin 100) (ht : 0 < total) :
    ∃ ss, cpuLoadSlices percent total = some ss ∧
      cpuLoadForDuration percent total = some (ss.flatMap Slice.actions) ∧
      ss.length = ((total + 9999999) / 10000000).toNat ∧
      (∀ k s, ss[k]? = some s →
        (k + 1 < ss.length → s.win = 10000000) ∧
        (k + 1 = ss.length → s.win = total - 10000000 * ((ss.length : Int) - 1))) ∧
      0 < total - 10000000 * ((ss.length : Int) - 1) ∧
      total - 10000000 * ((ss.length : Int) - 1) ≤ 10000000 := by
  refine ⟨_, cpuLoadSlices_eq percent ht,
    cpuLoadForDuration_mid (F64.not_le_of_lt hp0) (F64.not_le_of_lt hp1) ht, by simp, ?_, ?_, ?_⟩
  · intro k s hks
    obtain ⟨hk, rfl⟩ := slices_getElem? percent total _ k s hks
    simp only [List.length_map, List.length_range]
    rw [nextSlice_win]
    unfold window millisecond
    by_cases h : total < 10 * 1000000
    · rw [if_pos h]
      constructor
      · intro hk1
        omega
      · intro hk1
        have hk0 : k = 0 := by omega
        subst hk0
        have hn : ((((total + 9999999) / 10000000).toNat : Nat) : Int) = 1 := by omega
        rw [hn]
        simp
    · rw [if_neg h]
      constructor
      · intro hk1
        rw [if_neg (by omega)]
        norm_num
      · intro hk1
        have hn : ((((total + 9999999) / 10000000).toNat : Nat) : Int) = (k : Int) + 1 := by
          omega
        rw [hn]
        split <;> omega
  · simp only [List.length_map, List.length_range]
    omega
  · simp only [List.length_map, List.length_range]
    omega

theorem cpuLoadSlices_lengths_witness :
    (F64.fin 0 < F64.fin 37 ∧ F64.fin 37 < F64.fin 100 ∧ (0 : Int) < 25000007) ∧
      ∃ ss, cpuLoadSlices (F64.fin 37) 25000007 = some ss ∧
        cpuLoadForDuration (F64.fin 37) 25000007 = some (ss.flatMap Slice.actions) ∧
        ss.length = (((25000007 : Int) + 9999999) / 10000000).toNat ∧
        (∀ k s, ss[k]? = some s →
          (k + 1 < ss.length → s.win = 10000000) ∧
          (k + 1 = ss.length → s.win = 25000007 - 10000000 * ((ss.length : Int) - 1))) ∧
        0 < (25000007 : Int) - 10000000 * ((ss.length : Int) - 1) ∧
        (25000007 : Int) - 10000000 * ((ss.length : Int) - 1) ≤ 10000000 :=
  ⟨⟨F64.lt_fin_fin.mpr (by norm_num), F64.lt_fin_fin.mpr (by norm_num), by norm_num⟩,
    cpuLoadSlices_lengths (F64.fin 37) 25000007 (F64.lt_fin_fin.mpr (by norm_num))
      (F64.lt_fin_fin.mpr (by norm_num)) (by norm_num)⟩

/-! ## CPU load scheduler: busy and idle in float64 -/

/-- In float64, `57 / 100.0` is `5134103575202365 / 2 ^ 53`, and ten million times that is
`6120328396799999 / 2 ^ 30`, just below 5700000. -/
theorem busy_57 :
    F64.toInt (F64.mul (F64.ofInt 10000000) (F64.div (F64.fin 57) (F64.fin 100))) = 5699999 := by
  have e1 : F64.ofInt 10000000 = F64.fin 10000000 :=
    roundF64_eq 10000000 (by norm_num) _ _ (by norm_num) (by norm_num)
  have e2 : F64.div (F64.fin 57) (F64.fin 100) =
      F64.fin (((5134103575202365 : Int) : ℚ) * 2 ^ ((-1 : Int) - 52)) := by
    rw [F64.div_fin _ _ (by norm_num)]
    exact roundF64_of_binade (-1) 5134103575202365 (by norm_num) (by norm_num) (by norm_num)
      (by norm_num) (by norm_num [roundHalfEven])
  have e3 : F64.mul (F64.fin 10000000)
      (F64.fin (((5134103575202365 : Int) : ℚ) * 2 ^ ((-1 : Int) - 52))) =
      F64.fin (((6120328396799999 : Int) : ℚ) * 2 ^ ((22 : Int) - 52)) := by
    rw [F64.mul_fin]
    exact roundF64_of_binade 22 6120328396799999 (by norm_num) (by norm_num) (by norm_num)
      (by norm_num) (by norm_num [roundHalfEven])
  rw [e1, e2, e3]
  have h := F64.toInt_fin_of_mem (q := ((6120328396799999 : Int) : ℚ) * 2 ^ ((22 : Int) - 52))
    (n := 10000000) (by norm_num) (by norm_num) (by norm_num)
  rw [h.1]
  norm_num

/-- The schedule for 57 percent over one window of 10 ms. -/
theorem slices_57 :
    cpuLoadSlices (F64.fin 57) 10000000 = some [⟨10000000, 5699999, 4300001⟩] := by
  have hw : window 10000000 = 10000000 := by
    unfold window millisecond
    norm_num
  have hn : (((10000000 : Int) + 9999999) / 10000000).toNat = 1 := by norm_num
  rw [cpuLoadSlices_eq (F64.fin 57) (by norm_num), hn, hw]
  refine congrArg some ?_
  rw [show List.range 1 = [0] from rfl]
  simp only [List.map_cons, List.map_nil, Nat.cast_zero, zero_mul]
  have hwin : (nextSlice (F64.fin 57) 10000000 10000000 0).win = 10000000 := by
    rw [nextSlice_win]
    norm_num
  have hbusy := nextSlice_busy (F64.fin 57) 10000000 10000000 0
  have hidle := nextSlice_idle (F64.fin 57) 10000000 10000000 0
  rw [hwin, busy_57] at hbusy
  rw [hwin, hbusy, wrapInt64_of_mem (by norm_num) (by norm_num)] at hidle
  cases hns : nextSlice (F64.fin 57) 10000000 10000000 0
  rw [hns] at hwin hbusy hidle
  simp only at hwin hbusy hidle
  rw [hwin, hbusy, hidle]
  norm_num

/-- C13, as stated, fails: at 57 percent and one window of 10 ms the float64 product
`float64(win) * (percent / 100.0)` is just below 5700000, so the code runs `busyFor(5699999)`
and `Sleep(4300001)`, while `win * percent / 100` cut down to an integer is 5700000. -/
theorem busy_is_not_the_exact_floor :
    (F64.fin 0 < F64.fin 57 ∧ F64.fin 57 < F64.fin 100 ∧ (0 : Int) < 10000000) ∧
      cpuLoadSlices (F64.fin 57) 10000000 = some [⟨10000000, 5699999, 4300001⟩] ∧
      cpuLoadForDuration (F64.fin 57) 10000000 =
        some [Action.busyFor 5699999, Action.sleep 4300001] ∧
      ⌊((10000000 : Int) : ℚ) * 57 / 100⌋ = 5700000 ∧
      ¬ ((5699999 : Int) = ⌊((10000000 : Int) : ℚ) * 57 / 100⌋) := by
  have hg0 : ¬ (F64.fin 57 ≤ F64.fin 0) := by
    intro h
    have := F64.le_fin_fin.mp h
    norm_num at this
  have hg1 : ¬ (F64.fin 57 ≥ F64.fin 100) := by
    intro h
    have := F64.le_fin_fin.mp h
    norm_num at this
  have hfl : ⌊((10000000 : Int) : ℚ) * 57 / 100⌋ = 5700000 := by norm_num
  refine ⟨⟨F64.lt_fin_fin.mpr (by norm_num), F64.lt_fin_fin.mpr (by norm_num), by norm_num⟩,
    slices_57, ?_, hfl, ?_⟩
  · unfold cpuLoadForDuration
    rw [if_neg (by norm_num), if_neg hg0, if_neg hg1, slices_57]
    simp [Slice.actions]
  · rw [hfl]
    norm_num

/-- The busy part of a slice against the exact share `win * percent / 100`: at most
`2 ^ -29` above it, less than `1 + 2 ^ -29` below it, and within 1 of its integer part. -/
theorem nextSlice_busy_near {p : ℚ} (hp0 : 0 < p) (hp1 : p < 100) {total window elapsed : Int}
    (hw : 0 < window) (hw1 : window ≤ 10000000) (he : elapsed < total) :
    ((nextSlice (F64.fin p) total window elapsed).win : ℚ) * p / 100 - (1 + 2 ^ (-29 : Int)) <
        ((nextSlice (F64.fin p) total window elapsed).busy : ℚ) ∧
      ((nextSlice (F64.fin p) total window elapsed).busy : ℚ) ≤
        ((nextSlice (F64.fin p) total window elapsed).win : ℚ) * p / 100 + 2 ^ (-29 : Int) ∧
      |(nextSlice (F64.fin p) total window elapsed).busy -
          ⌊((nextSlice (F64.fin p) total window elapsed).win : ℚ) * p / 100⌋| ≤ 1 := by
  have hwin : 0 < (nextSlice (F64.fin p) total window elapsed).win ∧
      (nextSlice (F64.fin p) total window elapsed).win ≤ window := by
    rw [nextSlice_win]
    split <;> omega
  obtain ⟨y, hy, _, _, herr, t1, _, _⟩ :=
    busy_facts hp0 hp1 (le_of_lt hwin.1) (le_trans hwin.2 hw1)
  have hb : (nextSlice (F64.fin p) total window elapsed).busy = ⌊y⌋ := by
    rw [nextSlice_busy, hy, t1]
  rw [hb]
  generalize ((nextSlice (F64.fin p) total window elapsed).win : ℚ) * p / 100 = x at herr ⊢
  have hε : (2 : ℚ) ^ (-29 : Int) ≤ 1 / 2 := by norm_num
  have hε0 : (0 : ℚ) < 2 ^ (-29 : Int) := two_zpow_pos _
  obtain ⟨e1, e2⟩ := abs_le.mp herr
  generalize (2 : ℚ) ^ (-29 : Int) = ε at hε hε0 e1 e2 ⊢
  have f1 := Int.floor_le y
  have f2 := Int.lt_floor_add_one y
  have g1 := Int.floor_le x
  have g2 := Int.lt_floor_add_one x
  refine ⟨by linarith, by linarith, ?_⟩
  rw [abs_le]
  constructor
  · have : ((⌊x⌋ : Int) : ℚ) - 2 < ((⌊y⌋ : Int) : ℚ) := by linarith
    have h : ⌊x⌋ - 2 < ⌊y⌋ := by exact_mod_cast this
    omega
  · have : ((⌊y⌋ : Int) : ℚ) < ((⌊x⌋ : Int) : ℚ) + 2 := by linarith
    have h : ⌊y⌋ < ⌊x⌋ + 2 := by exact_mod_cast this
    omega

/-- C13, amended: for `total > 0` and a percentage `p` strictly between 0 and 100, in every
slice `busy` is the float64 product `float64(win) * (percent / 100.0)` cut down to a whole
number of nanoseconds, which is within 1 ns of `win * p / 100` cut down; `idle = win - busy`,
`busy + idle = win` and `0 ≤ busy ≤ win`; the slice runs `busyFor(busy)` exactly when
`busy > 0`, and after it `time.Sleep(idle)` exactly when `idle > 0`; the schedule is the
slices one after the other. -/
theorem cpuLoadSlices_busy_idle (percent : F64) (total : Int) (hp0 : F64.fin 0 < percent)
    (hp1 : percent < F64.fin 100) (ht : 0 < total) :
    ∃ p ss, percent = F64.fin p ∧ cpuLoadSlices percent total = some ss ∧
      cpuLoadForDuration percent total = some (ss.flatMap Slice.actions) ∧
      ∀ s ∈ ss,
        s.busy = F64.toInt (F64.mul (F64.ofInt s.win) (F64.div percent (F64.fin 100))) ∧
        |s.busy - ⌊(s.win : ℚ) * p / 100⌋| ≤ 1 ∧
        s.idle = s.win - s.busy ∧
        s.busy + s.idle = s.win ∧ 0 ≤ s.busy ∧ s.busy ≤ s.win ∧
        (s.busy > 0 → s.idle > 0 → s.actions = [Action.busyFor s.busy, Action.sleep s.idle]) ∧
        (s.busy > 0 → ¬ s.idle > 0 → s.actions = [Action.busyFor s.busy]) ∧
        (¬ s.busy > 0 → s.idle > 0 → s.actions = [Action.sleep s.idle]) ∧
        (¬ s.busy > 0 → ¬ s.idle > 0 → s.actions = []) := by
  obtain ⟨p, hp, hp0', hp1'⟩ := percent_eq_fin hp0 hp1
  refine ⟨p, _, hp, cpuLoadSlices_eq percent ht,
    cpuLoadForDuration_mid (F64.not_le_of_lt hp0) (F64.not_le_of_lt hp1) ht, ?_⟩
  intro s hs
  rw [List.mem_map] at hs
  obtain ⟨k, hk, rfl⟩ := hs
  rw [List.mem_range] at hk
  obtain ⟨_, _, hb0, hb1, hidle⟩ :=
    nextSlice_facts hp0 hp1 (window_pos ht) (window_le total) (slice_start_lt ht hk)
  have hnear := (nextSlice_busy_near hp0' hp1' (window_pos ht) (window_le total)
    (slice_start_lt ht hk)).2.2
  rw [← hp] at hnear
  refine ⟨nextSlice_busy _ _ _ _, hnear, hidle, ?_, hb0, hb1, ?_, ?_, ?_, ?_⟩
  · rw [hidle]
    ring
  · intro h1 h2
    simp [Slice.actions, h1, h2]
  · intro h1 h2
    simp [Slice.actions, h1, h2]
  · intro h1 h2
    simp [Slice.actions, h1, h2]
  · intro h1 h2
    simp [Slice.actions, h1, h2]

theorem cpuLoadSlices_busy_idle_witness :
    (F64.fin 0 < F64.fin 37 ∧ F64.fin 37 < F64.fin 100 ∧ (0 : Int) < 25000007) ∧
      ∃ p ss, F64.fin 37 = F64.fin p ∧ cpuLoadSlices (F64.fin 37) 25000007 = some ss ∧
        cpuLoadForDuration (F64.fin 37) 25000007 = some (ss.flatMap Slice.actions) ∧
        ∀ s ∈ ss,
          s.busy =
            F64.toInt (F64.mul (F64.ofInt s.win) (F64.div (F64.fin 37) (F64.fin 100))) ∧
          |s.busy - ⌊(s.win : ℚ) * p / 100⌋| ≤ 1 ∧
          s.idle = s.win - s.busy ∧
          s.busy + s.idle = s.win ∧ 0 ≤ s.busy ∧ s.busy ≤ s.win ∧
          (s.busy > 0 → s.idle > 0 →
            s.actions = [Action.busyFor s.busy, Action.sleep s.idle]) ∧
          (s.busy > 0 → ¬ s.idle > 0 → s.actions = [Action.busyFor s.busy]) ∧
          (¬ s.busy > 0 → s.idle > 0 → s.actions = [Action.sleep s.idle]) ∧
          (¬ s.busy > 0 → ¬ s.idle > 0 → s.actions = []) :=
  ⟨⟨F64.lt_fin_fin.mpr (by norm_num), F64.lt_fin_fin.mpr (by norm_num), by norm_num⟩,
    cpuLoadSlices_busy_idle (F64.fin 37) 25000007 (F64.lt_fin_fin.mpr (by norm_num))
      (F64.lt_fin_fin.mpr (by norm_num)) (by norm_num)⟩

/-! ## CPU load scheduler: the duty cycle -/

/-- Summing slices whose busy part is within the float64 error of `win * p / 100`. -/
theorem sum_busy_bounds (p : ℚ) (ss : List Slice)
    (h : ∀ s ∈ ss, (s.win : ℚ) * p / 100 - (1 + 2 ^ (-29 : Int)) < (s.busy : ℚ) ∧
      (s.busy : ℚ) ≤ (s.win : ℚ) * p / 100 + 2 ^ (-29 : Int)) :
    (((ss.map Slice.busy).sum : Int) : ℚ) ≤
        (((ss.map Slice.win).sum : Int) : ℚ) * p / 100 + (ss.length : ℚ) * 2 ^ (-29 : Int) ∧
      (((ss.map Slice.win).sum : Int) : ℚ) * p / 100 -
          (ss.length : ℚ) * (1 + 2 ^ (-29 : Int)) ≤ (((ss.map Slice.busy).sum : Int) : ℚ) ∧
      (ss ≠ [] →
        (((ss.map Slice.win).sum : Int) : ℚ) * p / 100 -
          (ss.length : ℚ) * (1 + 2 ^ (-29 : Int)) < (((ss.map Slice.busy).sum : Int) : ℚ)) := by
  induction ss with
  | nil => simp
  | cons s rest ih =>
    obtain ⟨ih1, ih2, _⟩ := ih (fun t ht => h t (List.mem_cons_of_mem s ht))
    obtain ⟨h2, h1⟩ := h s (List.mem_cons_self s rest)
    simp only [List.map_cons, List.sum_cons, List.length_cons, Int.cast_add, Nat.cast_add,
      Nat.cast_one]
    have e : ((s.win : ℚ) + (((rest.map Slice.win).sum : Int) : ℚ)) * p / 100 =
        (s.win : ℚ) * p / 100 + (((rest.map Slice.win).sum : Int) : ℚ) * p / 100 := by
      ring
    rw [e]
    generalize (2 : ℚ) ^ (-29 : Int) = ε at *
    refine ⟨by linarith, by linarith, fun _ => by linarith⟩

/-- C15, amended: for `total > 0` and a percentage `p` strictly between 0 and 100, the total
busy time `B` over the `n = ⌈total / 10 ms⌉` slices, computed in float64 as the code does,
satisfies `total * p / 100 - n * (1 + 2 ^ -29) < B ≤ total * p / 100 + n * 2 ^ -29`; `B` is also
the busy time of the schedule. -/
theorem cpuLoadForDuration_duty_cycle (percent : F64) (total : Int) (hp0 : F64.fin 0 < percent)
    (hp1 : percent < F64.fin 100) (ht : 0 < total) :
    ∃ p ss, percent = F64.fin p ∧ cpuLoadSlices percent total = some ss ∧
      cpuLoadForDuration percent total = some (ss.flatMap Slice.actions) ∧
      ss.length = ((total + 9999999) / 10000000).toNat ∧
      busyTime (ss.flatMap Slice.actions) = (ss.map Slice.busy).sum ∧
      (total : ℚ) * p / 100 - (ss.length : ℚ) * (1 + 2 ^ (-29 : Int)) <
        (((ss.map Slice.busy).sum : Int) : ℚ) ∧
      (((ss.map Slice.busy).sum : Int) : ℚ) ≤
        (total : ℚ) * p / 100 + (ss.length : ℚ) * 2 ^ (-29 : Int) := by
  obtain ⟨p, hp, hp0', hp1'⟩ := percent_eq_fin hp0 hp1
  obtain ⟨_, h2, h3⟩ := sliceCount_bounds ht
  have hsum := sum_win_eq percent total (window total) (window_pos ht)
    ((total + 9999999) / 10000000).toNat 0 (le_of_lt ht)
    (by rw [sub_zero]; exact h2) (by rw [sub_zero]; exact h3)
  simp only [zero_add, sub_zero] at hsum
  have hfacts : ∀ s ∈ (List.range ((total + 9999999) / 10000000).toNat).map
      (fun (k : Nat) => nextSlice percent total (window total) ((k : Int) * window total)),
      0 ≤ s.busy ∧ ((s.win : ℚ) * p / 100 - (1 + 2 ^ (-29 : Int)) < (s.busy : ℚ) ∧
        (s.busy : ℚ) ≤ (s.win : ℚ) * p / 100 + 2 ^ (-29 : Int)) := by
    intro s hs
    rw [List.mem_map] at hs
    obtain ⟨k, hk, rfl⟩ := hs
    rw [List.mem_range] at hk
    obtain ⟨_, _, hb0, _, _⟩ :=
      nextSlice_facts hp0 hp1 (window_pos ht) (window_le total) (slice_start_lt ht hk)
    have hnear := nextSlice_busy_near hp0' hp1' (window_pos ht) (window_le total)
      (slice_start_lt ht hk)
    rw [← hp] at hnear
    exact ⟨hb0, hnear.1, hnear.2.1⟩
  have hne : (List.range ((total + 9999999) / 10000000).toNat).map
      (fun (k : Nat) => nextSlice percent total (window total) ((k : Int) * window total)) ≠
        [] := by
    intro hnil
    have hl := congrArg List.length hnil
    simp only [List.length_map, List.length_range, List.length_nil] at hl
    omega
  obtain ⟨b1, _, b3⟩ := sum_busy_bounds p _ (fun s hs => (hfacts s hs).2)
  rw [hsum] at b1 b3
  exact ⟨p, _, hp, cpuLoadSlices_eq percent ht,
    cpuLoadForDuration_mid (F64.not_le_of_lt hp0) (F64.not_le_of_lt hp1) ht, by simp,
    busyTime_flatMap _ (fun s hs => (hfacts s hs).1), b3 hne, b1⟩

theorem cpuLoadForDuration_duty_cycle_witness :
    (F64.fin 0 < F64.fin 37 ∧ F64.fin 37 < F64.fin 100 ∧ (0 : Int) < 25000007) ∧
      ∃ p ss, F64.fin 37 = F64.fin p ∧ cpuLoadSlices (F64.fin 37) 25000007 = some ss ∧
        cpuLoadForDuration (F64.fin 37) 25000007 = some (ss.flatMap Slice.actions) ∧
        ss.length = (((25000007 : Int) + 9999999) / 10000000).toNat ∧
        busyTime (ss.flatMap Slice.actions) = (ss.map Slice.busy).sum ∧
        (((25000007 : Int) : ℚ)) * p / 100 - (ss.length : ℚ) * (1 + 2 ^ (-29 : Int)) <
          (((ss.map Slice.busy).sum : Int) : ℚ) ∧
        (((ss.map Slice.busy).sum : Int) : ℚ) ≤
          (((25000007 : Int) : ℚ)) * p / 100 + (ss.length : ℚ) * 2 ^ (-29 : Int) :=
  ⟨⟨F64.lt_fin_fin.mpr (by norm_num), F64.lt_fin_fin.mpr (by norm_num), by norm_num⟩,
    cpuLoadForDuration_duty_cycle (F64.fin 37) 25000007 (F64.lt_fin_fin.mpr (by norm_num))
      (F64.lt_fin_fin.mpr (by norm_num)) (by norm_num)⟩

/-- C15, as stated, fails: at 57 percent and a total of 10 ms there is `n = 1` slice and its
busy time in the code is `B = 5699999`, which is `total * percent / 100 - n` and not above
it. -/
theorem duty_cycle_lower_bound_fails :
    (F64.fin 0 < F64.fin 57 ∧ F64.fin 57 < F64.fin 100 ∧ (0 : Int) < 10000000) ∧
      cpuLoadSlices (F64.fin 57) 10000000 = some [⟨10000000, 5699999, 4300001⟩] ∧
      (([⟨10000000, 5699999, 4300001⟩] : List Slice).map Slice.busy).sum = 5699999 ∧
      ([⟨10000000, 5699999, 4300001⟩] : List Slice).length = 1 ∧
      ¬ (((10000000 : Int) : ℚ) * 57 / 100 - ((1 : Nat) : ℚ) < ((5699999 : Int) : ℚ)) := by
  refine ⟨⟨F64.lt_fin_fin.mpr (by norm_num), F64.lt_fin_fin.mpr (by norm_num), by norm_num⟩,
    slices_57, by simp, by simp, by norm_num⟩

/-! ## Memory toucher: bytes, stores and pages -/

theorem touchPages_small : touchPages [5, 6, 7] = some ⟨[1, 6, 1], [0, 2]⟩ := by
  unfold touchPages
  rw [touchLoop_unfold, if_pos (by simp), touchLoop_unfold, if_neg (by simp [page])]
  simp [Mem.store]

/-- C5: `touchPages` returns with a buffer of the same length, in which every offset that is
a multiple of 4096 and the last offset hold 1 and every other offset holds the byte it held
before; a buffer of length 0 is returned unchanged. -/
theorem touchPages_bytes (b : List UInt8) :
    ∃ m, touchPages b = some m ∧ m.bytes.length = b.length ∧
      (∀ i, i < b.length → (i % 4096 = 0 ∨ i = b.length - 1) → m.bytes[i]? = some 1) ∧
      (∀ i, i < b.length → ¬ (i % 4096 = 0 ∨ i = b.length - 1) → m.bytes[i]? = b[i]?) ∧
      (b.length = 0 → m.bytes = b) := by
  obtain ⟨m, h1, h2, h3⟩ := touchPages_spec b
  simp only [page] at h3
  refine ⟨m, h1, h2, ?_, ?_, ?_⟩
  · intro i hi hc
    rw [h3 i, if_pos]
    omega
  · intro i hi hc
    rw [h3 i, if_neg]
    omega
  · intro h0
    rw [List.length_eq_zero] at h0
    rw [h0] at h2 ⊢
    exact List.length_eq_zero.mp h2

/-- The page loop entered at `i` stores to `i`, `i + 4096`, `i + 8192`, ... below the length
of the buffer, in that order, and to nothing else. -/
theorem touchLoop_writes (n : Nat) : ∀ (m : Mem) (i : Nat), m.bytes.length - i = n →
    ∃ m', touchLoop m i = some m' ∧ m'.bytes.length = m.bytes.length ∧
      m'.writes = m.writes ++
        (List.range ((m.bytes.length - i + 4095) / 4096)).map (fun (t : Nat) => i + t * 4096) := by
  induction n using Nat.strong_induction_on with
  | _ n ih =>
    intro m i hn
    rw [touchLoop_unfold]
    by_cases h : i < m.bytes.length
    · rw [if_pos h]
      have hlen : (m.bytes.set i 1).length = m.bytes.length := List.length_set _ _ _
      obtain ⟨m', h1, h2, h3⟩ := ih ((m.bytes.set i 1).length - (i + page))
        (by rw [hlen]; simp only [page]; omega) ⟨m.bytes.set i 1, m.writes ++ [i]⟩ (i + page) rfl
      refine ⟨m', h1, by rw [h2, hlen], ?_⟩
      rw [h3]
      simp only [hlen, page]
      have hc : (m.bytes.length - i + 4095) / 4096 =
          (m.bytes.length - (i + 4096) + 4095) / 4096 + 1 := by omega
      rw [hc, List.range_succ_eq_map, List.map_cons, List.map_map, List.append_assoc]
      refine congrArg (fun l => m.writes ++ l) ?_
      simp only [List.singleton_append, Nat.zero_mul, Nat.add_zero]
      refine congrArg (fun l => i :: l) ?_
      apply List.map_congr_left
      intro t _
      simp only [Function.comp, Nat.succ_eq_add_one]
      ring
    · rw [if_neg h]
      refine ⟨m, rfl, rfl, ?_⟩
      have hc : (m.bytes.length - i + 4095) / 4096 = 0 := by omega
      rw [hc]
      simp

/-- The offsets `touchPages` stores to, in program order: the multiples of 4096 below the
length `N`, and then `N - 1` when `N > 0`. -/
theorem touchPages_writes (b : List UInt8) :
    ∃ m, touchPages b = some m ∧ m.bytes.length = b.length ∧
      m.writes = (List.range ((b.length + 4095) / 4096)).map (fun (t : Nat) => t * 4096) ++
        (if b.length > 0 then [b.length - 1] else []) := by
  obtain ⟨m', h1, h2, h3⟩ := touchLoop_writes (b.length - 0) ⟨b, []⟩ 0 rfl
  simp only [Nat.sub_zero, List.nil_append, Nat.zero_add] at h2 h3
  unfold touchPages
  rw [h1]
  simp only [h2]
  by_cases hpos : b.length > 0
  · rw [if_pos hpos, if_pos hpos]
    have hlt : b.length - 1 < m'.bytes.length := by omega
    refine ⟨⟨m'.bytes.set (b.length - 1) 1, m'.writes ++ [b.length - 1]⟩, ?_, ?_, ?_⟩
    · simp [Mem.store, hlt]
    · simp only [List.length_set]
      exact h2
    · simp only [h3]
  · rw [if_neg hpos, if_neg hpos]
    refine ⟨m', rfl, h2, ?_⟩
    rw [h3]
    simp

/-- C11: for every buffer, of length 0 and of a length that is no multiple of 4096 included,
`touchPages` returns without an index panic, and every offset it stores to is a valid index
`i < N`. -/
theorem touchPages_in_bounds (b : List UInt8) :
    ∃ m, touchPages b = some m ∧ (∀ i ∈ m.writes, i < b.length) ∧
      (b.length = 0 → m.writes = []) := by
  obtain ⟨m, h1, _, h3⟩ := touchPages_writes b
  refine ⟨m, h1, ?_, ?_⟩
  · intro i hi
    rw [h3, List.mem_append] at hi
    rcases hi with hi | hi
    · rw [List.mem_map] at hi
      obtain ⟨t, ht, rfl⟩ := hi
      rw [List.mem_range] at ht
      omega
    · by_cases hpos : b.length > 0
      · rw [if_pos hpos, List.mem_singleton] at hi
        omega
      · rw [if_neg hpos] at hi
        cases hi
  · intro h0
    rw [h3, h0]
    simp

/-- C16: for a buffer of length `N > 0`, every 4096-byte page of the buffer contains an
offset stored to by `touchPages` (its first byte), and at most `⌈N / 4096⌉ + 1` distinct
offsets are stored to. -/
theorem touchPages_covers_pages (b : List UInt8) (hN : 0 < b.length) :
    ∃ m, touchPages b = some m ∧
      (∀ k, 4096 * k < b.length →
        ∃ i ∈ m.writes, 4096 * k ≤ i ∧ i < min (4096 * (k + 1)) b.length) ∧
      m.writes.dedup.length ≤ (b.length + 4095) / 4096 + 1 := by
  obtain ⟨m, h1, _, h3⟩ := touchPages_writes b
  refine ⟨m, h1, ?_, ?_⟩
  · intro k hk
    refine ⟨4096 * k, ?_, le_refl _, ?_⟩
    · rw [h3, List.mem_append]
      left
      rw [List.mem_map]
      exact ⟨k, List.mem_range.mpr (by omega), by ring⟩
    · rw [lt_min_iff]
      omega
  · have hle : m.writes.dedup.length ≤ m.writes.length :=
      (List.dedup_sublist m.writes).length_le
    have hlen : m.writes.length = (b.length + 4095) / 4096 + 1 := by
      rw [h3, if_pos hN]
      simp
    rw [hlen] at hle
    exact hle

theorem touchPages_covers_pages_witness :
    (0 < ([5, 6, 7] : List UInt8).length) ∧
      ∃ m, touchPages [5, 6, 7] = some m ∧
        (∀ k, 4096 * k < ([5, 6, 7] : List UInt8).length →
          ∃ i ∈ m.writes, 4096 * k ≤ i ∧
            i < min (4096 * (k + 1)) ([5, 6, 7] : List UInt8).length) ∧
        m.writes.dedup.length ≤ (([5, 6, 7] : List UInt8).length + 4095) / 4096 + 1 :=
  ⟨by decide, touchPages_covers_pages [5, 6, 7] (by decide)⟩

/-! ## Targets of the handler -/

theorem F64.mul_nan (x : F64) : F64.mul x F64.nan = F64.nan := by
  cases x <;> rfl

theorem F64.add_nan (x : F64) : F64.add x F64.nan = F64.nan := by
  cases x <;> rfl

/-- With a NaN jitter factor the jittered value is NaN. -/
theorem applyJitter_nan (value u : F64) : applyJitter value F64.nan u = F64.nan := by
  rw [applyJitter_of_pos _ _ _ (F64.not_nan_le _), F64.mul_nan, F64.add_nan, F64.mul_nan]

/-- A finite value jittered by a finite factor with a draw in `[0, 1)` is not NaN. -/
theorem applyJitter_ne_nan (v : ℚ) (jitter u : F64) (hjf : jitter.IsFinite)
    (hu0 : F64.fin 0 ≤ u) (hu1 : u < F64.fin 1) :
    applyJitter (F64.fin v) jitter u ≠ F64.nan := by
  obtain ⟨j, rfl, hjr⟩ := F64.isFinite_iff.mp hjf
  obtain ⟨a, rfl, ha0, ha1⟩ := F64.eq_fin_of_le_of_lt hu0 hu1
  by_cases hz : F64.fin j ≤ F64.fin 0
  · rw [applyJitter_eq_of_nonpos _ _ _ hz]
    exact fun h => F64.noConfusion h
  · have hj0 : 0 ≤ j := le_of_lt (not_le.mp (fun h => hz (F64.le_fin_fin.mpr h)))
    obtain ⟨s, hs, _, _⟩ := scale_mem hjr hj0 ha0 ha1
    rw [applyJitter_of_pos _ _ _ hz, hs, F64.mul_fin]
    exact roundF64_ne_nan _

/-- A 64-bit integer converts to a finite float64 value. -/
theorem F64.ofInt_eq_fin {n : Int} (h : IsInt64 n) : ∃ r, F64.ofInt n = F64.fin r := by
  have hb := roundF64_int_mul_zpow (z := 1) (e := 63) (by norm_num) (by norm_num) (by norm_num)
  have ha := roundF64_int_mul_zpow (z := -1) (e := 63) (by norm_num) (by norm_num) (by norm_num)
  have e63 : (2 : ℚ) ^ (63 : Int) = (((2 : Int) ^ 63 : Int) : ℚ) := by norm_num
  have h0 : (((-1 : Int) : ℚ)) * 2 ^ (63 : Int) ≤ (n : ℚ) := by
    rw [e63]
    have : ((-2 ^ 63 : Int) : ℚ) ≤ (n : ℚ) := by exact_mod_cast h.1
    push_cast at this ⊢
    linarith
  have h1 : (n : ℚ) ≤ (((1 : Int) : ℚ)) * 2 ^ (63 : Int) := by
    rw [e63]
    have : (n : ℚ) ≤ ((2 ^ 63 : Int) : ℚ) := by exact_mod_cast le_of_lt h.2
    push_cast at this ⊢
    linarith
  obtain ⟨r, hr, _, _⟩ := roundF64_mem ha hb h0 h1
  exact ⟨r, hr⟩

/-- The clamp to finite bounds is NaN or a finite value between the bounds. -/
theorem clampFloat_cases (v : F64) {a b : ℚ} (h : a ≤ b) :
    clampFloat v (F64.fin a) (F64.fin b) = F64.nan ∨
      ∃ q, clampFloat v (F64.fin a) (F64.fin b) = F64.fin q ∧ a ≤ q ∧ q ≤ b := by
  by_cases hv : v = F64.nan
  · left
    rw [hv, clampFloat_nan]
  · right
    exact clampFloat_eq_fin v h hv

theorem toInt_mathRound_fin {q : ℚ} {n : Int} (h0 : 0 ≤ q) (h1 : q ≤ (n : ℚ)) (hn : n < 2 ^ 63) :
    F64.toInt (mathRound (F64.fin q)) = ⌊q + 1 / 2⌋ ∧ 0 ≤ ⌊q + 1 / 2⌋ ∧ ⌊q + 1 / 2⌋ ≤ n := by
  have a0 : 0 ≤ ⌊q + 1 / 2⌋ := Int.floor_nonneg.mpr (by linarith)
  have a1 : ⌊q + 1 / 2⌋ < n + 1 := by
    rw [Int.floor_lt]
    push_cast
    linarith
  refine ⟨?_, a0, by omega⟩
  show F64.toInt (F64.fin ((roundAway q : Int) : ℚ)) = ⌊q + 1 / 2⌋
  rw [roundAway_of_nonneg h0]
  exact F64.toInt_intCast _ (by omega) (by omega)

/-- The memory target is `-2 ^ 63` (from NaN) or lies in `[0, 1024]`. -/
theorem memJ_cases (c : Config) (u : F64) :
    memJ c u = -2 ^ 63 ∨ (0 ≤ memJ c u ∧ memJ c u ≤ 1024) := by
  unfold memJ
  rcases clampFloat_cases (applyJitter (F64.ofInt c.memMB) c.jitter u) (a := 0) (b := 1024)
    (by norm_num) with h | ⟨q, h, h0, h1⟩
  · left
    rw [h]
    rfl
  · right
    rw [h]
    obtain ⟨t1, t2, t3⟩ := F64.toInt_fin_of_mem (n := 1024) h0 (by exact_mod_cast h1)
      (by norm_num)
    rw [t1]
    exact ⟨t2, t3⟩

/-- The duration target is `-2 ^ 63` (from NaN) or lies in `[0, 60000]`. -/
theorem timeJms_cases (c : Config) (u : F64) :
    timeJms c u = -2 ^ 63 ∨ (0 ≤ timeJms c u ∧ timeJms c u ≤ 60000) := by
  unfold timeJms
  rcases clampFloat_cases (applyJitter (F64.ofInt c.timeMS) c.jitter u) (a := 0) (b := 60000)
    (by norm_num) with h | ⟨q, h, h0, h1⟩
  · left
    rw [h]
    rfl
  · right
    rw [h]
    obtain ⟨t1, t2, t3⟩ := toInt_mathRound_fin (n := 60000) h0 (by exact_mod_cast h1)
      (by norm_num)
    rw [t1]
    exact ⟨t2, t3⟩

theorem cpuJ_mem (c : Config) (u : F64) (hc : c.cpuPercent.IsFinite) (hj : c.jitter.IsFinite)
    (hu0 : F64.fin 0 ≤ u) (hu1 : u < F64.fin 1) :
    F64.fin 0 ≤ cpuJ c u ∧ cpuJ c u ≤ F64.fin 100 := by
  obtain ⟨v, hv, _⟩ := F64.isFinite_iff.mp hc
  have hne : applyJitter c.cpuPercent c.jitter u ≠ F64.nan := by
    rw [hv]
    exact applyJitter_ne_nan v _ _ hj hu0 hu1
  exact ⟨clampFloat_ge _ _ _ (F64.le_fin_fin.mpr (by norm_num)) hne,
    clampFloat_le _ _ _ (F64.le_fin_fin.mpr (by norm_num)) hne⟩

theorem memJ_mem (c : Config) (u : F64) (hm : IsInt64 c.memMB) (hj : c.jitter.IsFinite)
    (hu0 : F64.fin 0 ≤ u) (hu1 : u < F64.fin 1) : 0 ≤ memJ c u ∧ memJ c u ≤ 1024 := by
  obtain ⟨v, hv⟩ := F64.ofInt_eq_fin hm
  have hne : applyJitter (F64.ofInt c.memMB) c.jitter u ≠ F64.nan := by
    rw [hv]
    exact applyJitter_ne_nan v _ _ hj hu0 hu1
  obtain ⟨q, h, h0, h1⟩ := clampFloat_eq_fin _ (a := 0) (b := 1024) (by norm_num) hne
  unfold memJ
  rw [h]
  obtain ⟨t1, t2, t3⟩ := F64.toInt_fin_of_mem (n := 1024) h0 (by exact_mod_cast h1) (by norm_num)
  rw [t1]
  exact ⟨t2, t3⟩

theorem timeJms_mem (c : Config) (u : F64) (ht : IsInt64 c.timeMS) (hj : c.jitter.IsFinite)
    (hu0 : F64.fin 0 ≤ u) (hu1 : u < F64.fin 1) : 0 ≤ timeJms c u ∧ timeJms c u ≤ 60000 := by
  obtain ⟨v, hv⟩ := F64.ofInt_eq_fin ht
  have hne : applyJitter (F64.ofInt c.timeMS) c.jitter u ≠ F64.nan := by
    rw [hv]
    exact applyJitter_ne_nan v _ _ hj hu0 hu1
  obtain ⟨q, h, h0, h1⟩ := clampFloat_eq_fin _ (a := 0) (b := 60000) (by norm_num) hne
  unfold timeJms
  rw [h]
  obtain ⟨t1, t2, t3⟩ := toInt_mathRound_fin (n := 60000) h0 (by exact_mod_cast h1)
    (by norm_num)
  rw [t1]
  exact ⟨t2, t3⟩

/-! ## Request handler -/

/-- For `memJ ≤ 1024` the allocation step returns: no buffer for `memJ ≤ 0`, and a touched
buffer of `memJ * 1024 * 1024` bytes otherwise. -/
theorem allocate_returns {mem : Int} (h1 : mem ≤ 1024) :
    ∃ r, allocate mem = some r ∧ (mem ≤ 0 → r = none) ∧
      (0 < mem → ∃ m, r = some m ∧ (m.bytes.length : Int) = mem * 1024 * 1024) := by
  unfold allocate
  by_cases hpos : mem > 0
  · rw [if_pos hpos]
    have e1 : wrapInt64 (mem * 1024) = mem * 1024 := wrapInt64_of_mem (by omega) (by omega)
    have e2 : wrapInt64 (mem * 1024 * 1024) = mem * 1024 * 1024 :=
      wrapInt64_of_mem (by omega) (by omega)
    have e3 : makeBytes (mem * 1024 * 1024) =
        some (List.replicate (mem * 1024 * 1024).toNat 0) := by
      unfold makeBytes
      rw [if_neg (by omega)]
    obtain ⟨m, hm, hlen, _⟩ := touchPages_spec (List.replicate (mem * 1024 * 1024).toNat 0)
    rw [e1, e2, e3]
    simp only [hm]
    refine ⟨some m, rfl, by omega, fun _ => ⟨m, rfl, ?_⟩⟩
    rw [hlen, List.length_replicate]
    omega
  · rw [if_neg hpos]
    exact ⟨none, rfl, fun _ => rfl, fun h => absurd h hpos⟩

/-- The handler returns for every configuration and every draw, NaN and infinite flag values
included; it schedules `timeJms` milliseconds (a 64-bit product) at `cpuJ` percent and
reports the three targets and the jitter factor. -/
theorem handler_returns (c : Config) (u₁ u₂ u₃ : F64) :
    ∃ r acts, allocate (memJ c u₂) = some r ∧
      cpuLoadForDuration (cpuJ c u₁) (wrapInt64 (timeJms c u₃ * millisecond)) = some acts ∧
      handler c u₁ u₂ u₃ =
        some ⟨r, wrapInt64 (timeJms c u₃ * millisecond), acts,
          ⟨timeJms c u₃, cpuJ c u₁, memJ c u₂, c.jitter⟩⟩ := by
  have hm : memJ c u₂ ≤ 1024 := by
    rcases memJ_cases c u₂ with h | h
    · rw [h]
      norm_num
    · exact h.2
  obtain ⟨r, hr, _⟩ := allocate_returns hm
  obtain ⟨acts, hacts⟩ :=
    cpuLoadForDuration_returns (cpuJ c u₁) (wrapInt64 (timeJms c u₃ * millisecond))
  refine ⟨r, acts, hr, hacts, ?_⟩
  unfold handler
  simp only [hr, hacts]

/-- C4, as stated, fails for a NaN flag: with `-cpu=NaN` (and no jitter) the handler returns
and reports `cpuJ = NaN`, which is not in `[0, 100]`. -/
theorem handler_reports_nan_cpu :
    cpuJ ⟨F64.nan, 0, 0, F64.fin 0⟩ (F64.fin 0) = F64.nan ∧
      ¬ (F64.fin 0 ≤ cpuJ ⟨F64.nan, 0, 0, F64.fin 0⟩ (F64.fin 0) ∧
          cpuJ ⟨F64.nan, 0, 0, F64.fin 0⟩ (F64.fin 0) ≤ F64.fin 100) ∧
      ∃ run, handler ⟨F64.nan, 0, 0, F64.fin 0⟩ (F64.fin 0) (F64.fin 0) (F64.fin 0) = some run ∧
        run.response.targetCpu = F64.nan := by
  have e : cpuJ ⟨F64.nan, 0, 0, F64.fin 0⟩ (F64.fin 0) = F64.nan := by
    unfold cpuJ
    rw [applyJitter_eq_of_nonpos _ _ _ (F64.le_fin_fin.mpr (le_refl 0)), clampFloat_nan]
  refine ⟨e, ?_, ?_⟩
  · rw [e]
    intro h
    exact F64.not_le_nan _ h.1
  · obtain ⟨r, acts, _, _, h⟩ :=
      handler_returns ⟨F64.nan, 0, 0, F64.fin 0⟩ (F64.fin 0) (F64.fin 0) (F64.fin 0)
    exact ⟨_, h, e⟩

/-- C4, amended: for every configuration whose `cpuPercent` and `jitter` are finite float64
values (`memMB` and `timeMS` any 64-bit integers, nominal range or not) and every three
draws in `[0, 1)`, the handler returns (nothing is rejected), and the targets it computes
and reports satisfy `0 ≤ cpuJ ≤ 100`, `0 ≤ memJ ≤ 1024` and `0 ≤ timeJms ≤ 60000`. -/
theorem handler_targets_in_range (c : Config) (u₁ u₂ u₃ : F64) (hc : c.cpuPercent.IsFinite)
    (hj : c.jitter.IsFinite) (hm : IsInt64 c.memMB) (ht : IsInt64 c.timeMS)
    (h₁ : F64.fin 0 ≤ u₁ ∧ u₁ < F64.fin 1) (h₂ : F64.fin 0 ≤ u₂ ∧ u₂ < F64.fin 1)
    (h₃ : F64.fin 0 ≤ u₃ ∧ u₃ < F64.fin 1) :
    ∃ run, handler c u₁ u₂ u₃ = some run ∧
      run.response = ⟨timeJms c u₃, cpuJ c u₁, memJ c u₂, c.jitter⟩ ∧
      (F64.fin 0 ≤ run.response.targetCpu ∧ run.response.targetCpu ≤ F64.fin 100) ∧
      (0 ≤ run.response.targetMem ∧ run.response.targetMem ≤ 1024) ∧
      (0 ≤ run.response.targetTime ∧ run.response.targetTime ≤ 60000) := by
  obtain ⟨r, acts, _, _, h⟩ := handler_returns c u₁ u₂ u₃
  exact ⟨_, h, rfl, cpuJ_mem c u₁ hc hj h₁.1 h₁.2, memJ_mem c u₂ hm hj h₂.1 h₂.2,
    timeJms_mem c u₃ ht hj h₃.1 h₃.2⟩

theorem handler_targets_in_range_witness :
    ((F64.fin 250).IsFinite ∧ (F64.fin (1 / 2)).IsFinite ∧ IsInt64 5000 ∧ IsInt64 (-7) ∧
        (F64.fin 0 ≤ F64.fin (1 / 4) ∧ F64.fin (1 / 4) < F64.fin 1)) ∧
      ∃ run, handler ⟨F64.fin 250, 5000, -7, F64.fin (1 / 2)⟩ (F64.fin (1 / 4)) (F64.fin (1 / 4))
          (F64.fin (1 / 4)) = some run ∧
        run.response =
          ⟨timeJms ⟨F64.fin 250, 5000, -7, F64.fin (1 / 2)⟩ (F64.fin (1 / 4)),
            cpuJ ⟨F64.fin 250, 5000, -7, F64.fin (1 / 2)⟩ (F64.fin (1 / 4)),
            memJ ⟨F64.fin 250, 5000, -7, F64.fin (1 / 2)⟩ (F64.fin (1 / 4)), F64.fin (1 / 2)⟩ ∧
        (F64.fin 0 ≤ run.response.targetCpu ∧ run.response.targetCpu ≤ F64.fin 100) ∧
        (0 ≤ run.response.targetMem ∧ run.response.targetMem ≤ 1024) ∧
        (0 ≤ run.response.targetTime ∧ run.response.targetTime ≤ 60000) :=
  ⟨⟨isFinite_int 250 (by norm_num) _ (by norm_num), roundF64_half,
      ⟨by norm_num, by norm_num⟩, ⟨by norm_num, by norm_num⟩,
      ⟨F64.le_fin_fin.mpr (by norm_num), F64.lt_fin_fin.mpr (by norm_num)⟩⟩,
    handler_targets_in_range ⟨F64.fin 250, 5000, -7, F64.fin (1 / 2)⟩ (F64.fin (1 / 4))
      (F64.fin (1 / 4)) (F64.fin (1 / 4)) (isFinite_int 250 (by norm_num) _ (by norm_num))
      roundF64_half ⟨by norm_num, by norm_num⟩ ⟨by norm_num, by norm_num⟩
      ⟨F64.le_fin_fin.mpr (by norm_num), F64.lt_fin_fin.mpr (by norm_num)⟩
      ⟨F64.le_fin_fin.mpr (by norm_num), F64.lt_fin_fin.mpr (by norm_num)⟩
      ⟨F64.le_fin_fin.mpr (by norm_num), F64.lt_fin_fin.mpr (by norm_num)⟩⟩

/-- C9: with a jitter factor `≤ 0` and configured values inside their ranges, the handler
returns and the targets it computes and reports are the configured values themselves. -/
theorem handler_targets_without_jitter (c : Config) (u₁ u₂ u₃ : F64)
    (hj : c.jitter ≤ F64.fin 0) (hc0 : F64.fin 0 ≤ c.cpuPercent)
    (hc1 : c.cpuPercent ≤ F64.fin 100) (hm0 : 0 ≤ c.memMB) (hm1 : c.memMB ≤ 1024)
    (ht0 : 0 ≤ c.timeMS) (ht1 : c.timeMS ≤ 60000) :
    ∃ run, handler c u₁ u₂ u₃ = some run ∧
      run.response = ⟨c.timeMS, c.cpuPercent, c.memMB, c.jitter⟩ ∧
      timeJms c u₃ = c.timeMS ∧ cpuJ c u₁ = c.cpuPercent ∧ memJ c u₂ = c.memMB := by
  have e1 : cpuJ c u₁ = c.cpuPercent := by
    unfold cpuJ
    rw [applyJitter_eq_of_nonpos _ _ _ hj, clampFloat_of_mem _ _ _ hc0 hc1]
  have e2 : memJ c u₂ = c.memMB := by
    unfold memJ
    rw [applyJitter_eq_of_nonpos _ _ _ hj, F64.ofInt_eq (by rw [abs_of_nonneg hm0]; omega),
      clampFloat_of_mem _ _ _ (F64.le_fin_fin.mpr (by exact_mod_cast hm0))
        (F64.le_fin_fin.mpr (by exact_mod_cast hm1))]
    exact F64.toInt_intCast _ (by omega) (by omega)
  have e3 : timeJms c u₃ = c.timeMS := by
    unfold timeJms
    rw [applyJitter_eq_of_nonpos _ _ _ hj, F64.ofInt_eq (by rw [abs_of_nonneg ht0]; omega),
      clampFloat_of_mem _ _ _ (F64.le_fin_fin.mpr (by exact_mod_cast ht0))
        (F64.le_fin_fin.mpr (by exact_mod_cast ht1))]
    show F64.toInt (F64.fin ((roundAway (c.timeMS : ℚ) : Int) : ℚ)) = c.timeMS
    rw [roundAway_intCast]
    exact F64.toInt_intCast _ (by omega) (by omega)
  obtain ⟨r, acts, _, _, h⟩ := handler_returns c u₁ u₂ u₃
  rw [e1, e2, e3] at h
  exact ⟨_, h, rfl, e3, e1, e2⟩

theorem handler_targets_without_jitter_witness :
    (F64.fin 0 ≤ F64.fin 0 ∧ F64.fin 0 ≤ F64.fin 100 ∧ (0 : Int) ≤ 0 ∧ (0 : Int) ≤ 1024 ∧
        (0 : Int) ≤ 50 ∧ (50 : Int) ≤ 60000) ∧
      ∃ run, handler ⟨F64.fin 0, 0, 50, F64.fin 0⟩ (F64.fin (1 / 3)) (F64.fin (1 / 2))
          (F64.fin (3 / 4)) = some run ∧
        run.response = ⟨50, F64.fin 0, 0, F64.fin 0⟩ ∧
        timeJms ⟨F64.fin 0, 0, 50, F64.fin 0⟩ (F64.fin (3 / 4)) = 50 ∧
        cpuJ ⟨F64.fin 0, 0, 50, F64.fin 0⟩ (F64.fin (1 / 3)) = F64.fin 0 ∧
        memJ ⟨F64.fin 0, 0, 50, F64.fin 0⟩ (F64.fin (1 / 2)) = 0 :=
  ⟨⟨F64.le_fin_fin.mpr (le_refl 0), F64.le_fin_fin.mpr (by norm_num), by norm_num, by norm_num,
      by norm_num, by norm_num⟩,
    handler_targets_without_jitter ⟨F64.fin 0, 0, 50, F64.fin 0⟩ (F64.fin (1 / 3))
      (F64.fin (1 / 2)) (F64.fin (3 / 4)) (F64.le_fin_fin.mpr (le_refl 0))
      (F64.le_fin_fin.mpr (le_refl 0)) (F64.le_fin_fin.mpr (by norm_num)) (le_refl 0)
      (by norm_num) (by norm_num) (by norm_num)⟩

/-! ## Request handler: the duration inside the nominal ranges -/

/-- A value in `[0, 1000]` jittered by a factor in `[0, 1]` with a draw in `[0, 1)` is a
finite value in `[0, 2000]`. -/
theorem applyJitter_nominal {t : ℚ} (jitter u : F64) (ht0 : 0 ≤ t) (ht1 : t ≤ 1000)
    (hj0 : F64.fin 0 ≤ jitter) (hj1 : jitter ≤ F64.fin 1) (hu0 : F64.fin 0 ≤ u)
    (hu1 : u < F64.fin 1) :
    ∃ x, applyJitter (F64.fin t) jitter u = F64.fin x ∧ 0 ≤ x ∧ x ≤ 2000 := by
  obtain ⟨j, rfl, hj0', hj1'⟩ := F64.eq_fin_of_mem hj0 hj1
  obtain ⟨a, rfl, ha0, ha1⟩ := F64.eq_fin_of_le_of_lt hu0 hu1
  by_cases hz : F64.fin j ≤ F64.fin 0
  · rw [applyJitter_eq_of_nonpos _ _ _ hz]
    exact ⟨t, rfl, ht0, by linarith⟩
  · have hap := applyJitter_of_pos (F64.fin t) _ (F64.fin a) hz
    clear hz hj0 hj1 hu0 hu1
    obtain ⟨w, hw, hw0, hw1⟩ := draw_factor ha0 ha1
    obtain ⟨p, hp, hp0, hp1⟩ := roundF64_mem (q := w * j) (a := -1) (b := 1)
      (roundF64_int (-1) (by norm_num) _ (by norm_num))
      (roundF64_int 1 (by norm_num) _ (by norm_num)) (by nlinarith) (by nlinarith)
    obtain ⟨s, hs, hs0, hs1⟩ := roundF64_mem (q := 1 + p) (a := 0) (b := 2)
      (roundF64_int 0 (by norm_num) _ (by norm_num))
      (roundF64_int 2 (by norm_num) _ (by norm_num)) (by linarith) (by linarith)
    obtain ⟨x, hx, hx0, hx1⟩ := roundF64_mem (q := t * s) (a := 0) (b := 2000)
      (roundF64_int 0 (by norm_num) _ (by norm_num))
      (roundF64_int 2000 (by norm_num) _ (by norm_num)) (mul_nonneg ht0 hs0) (by nlinarith)
    rw [hap, hw, F64.mul_fin, hp, F64.add_fin, hs, F64.mul_fin, hx]
    exact ⟨x, rfl, hx0, hx1⟩

/-- C14: with `0 ≤ timeMS ≤ 1000`, a jitter factor in `[0, 1]` and a draw in `[0, 1)`, the
clamp to `[0, 60000]` leaves the jittered duration as it is, `timeJms` is that duration
rounded to the nearest integer, and `timeJms ≤ 2000`. -/
theorem timeJms_nominal (c : Config) (u : F64) (ht0 : 0 ≤ c.timeMS) (ht1 : c.timeMS ≤ 1000)
    (hj0 : F64.fin 0 ≤ c.jitter) (hj1 : c.jitter ≤ F64.fin 1) (hu0 : F64.fin 0 ≤ u)
    (hu1 : u < F64.fin 1) :
    clampFloat (applyJitter (F64.ofInt c.timeMS) c.jitter u) (F64.fin 0) (F64.fin 60000) =
        applyJitter (F64.ofInt c.timeMS) c.jitter u ∧
      timeJms c u = F64.toInt (mathRound (applyJitter (F64.ofInt c.timeMS) c.jitter u)) ∧
      (∃ x, applyJitter (F64.ofInt c.timeMS) c.jitter u = F64.fin x ∧
        |((timeJms c u : Int) : ℚ) - x| ≤ 1 / 2) ∧
      timeJms c u ≤ 2000 := by
  have hv0 : (0 : ℚ) ≤ (c.timeMS : ℚ) := by exact_mod_cast ht0
  have hv1 : (c.timeMS : ℚ) ≤ 1000 := by exact_mod_cast ht1
  have hof : F64.ofInt c.timeMS = F64.fin (c.timeMS : ℚ) :=
    F64.ofInt_eq (by rw [abs_of_nonneg ht0]; omega)
  obtain ⟨x, hx, hx0, hx1⟩ := applyJitter_nominal c.jitter u hv0 hv1 hj0 hj1 hu0 hu1
  rw [← hof] at hx
  have hclamp : clampFloat (applyJitter (F64.ofInt c.timeMS) c.jitter u) (F64.fin 0)
      (F64.fin 60000) = applyJitter (F64.ofInt c.timeMS) c.jitter u := by
    rw [hx]
    exact clampFloat_of_mem _ _ _ (F64.le_fin_fin.mpr hx0) (F64.le_fin_fin.mpr (by linarith))
  have htime : timeJms c u = F64.toInt (mathRound (applyJitter (F64.ofInt c.timeMS) c.jitter u)) := by
    unfold timeJms
    rw [hclamp]
  obtain ⟨t1, _, t3⟩ := toInt_mathRound_fin (q := x) (n := 2000) hx0 (by exact_mod_cast hx1)
    (by norm_num)
  have hval : timeJms c u = ⌊x + 1 / 2⌋ := by
    rw [htime, hx, t1]
  refine ⟨hclamp, htime, ⟨x, hx, ?_⟩, by rw [hval]; exact t3⟩
  rw [hval, abs_le]
  have hf1 := Int.floor_le (x + 1 / 2)
  have hf2 := Int.lt_floor_add_one (x + 1 / 2)
  constructor <;> linarith

theorem timeJms_nominal_witness :
    ((0 : Int) ≤ 1000 ∧ (1000 : Int) ≤ 1000 ∧ F64.fin 0 ≤ F64.fin 1 ∧ F64.fin 1 ≤ F64.fin 1 ∧
        F64.fin 0 ≤ F64.fin (3 / 4) ∧ F64.fin (3 / 4) < F64.fin 1) ∧
      clampFloat (applyJitter (F64.ofInt 1000) (F64.fin 1) (F64.fin (3 / 4))) (F64.fin 0)
          (F64.fin 60000) = applyJitter (F64.ofInt 1000) (F64.fin 1) (F64.fin (3 / 4)) ∧
      timeJms ⟨F64.fin 0, 0, 1000, F64.fin 1⟩ (F64.fin (3 / 4)) =
        F64.toInt (mathRound (applyJitter (F64.ofInt 1000) (F64.fin 1) (F64.fin (3 / 4)))) ∧
      (∃ x, applyJitter (F64.ofInt 1000) (F64.fin 1) (F64.fin (3 / 4)) = F64.fin x ∧
        |((timeJms ⟨F64.fin 0, 0, 1000, F64.fin 1⟩ (F64.fin (3 / 4)) : Int) : ℚ) - x| ≤ 1 / 2) ∧
      timeJms ⟨F64.fin 0, 0, 1000, F64.fin 1⟩ (F64.fin (3 / 4)) ≤ 2000 :=
  ⟨⟨by norm_num, by norm_num, F64.le_fin_fin.mpr (by norm_num), F64.le_fin_fin.mpr (le_refl 1),
      F64.le_fin_fin.mpr (by norm_num), F64.lt_fin_fin.mpr (by norm_num)⟩,
    timeJms_nominal ⟨F64.fin 0, 0, 1000, F64.fin 1⟩ (F64.fin (3 / 4)) (by norm_num)
      (by norm_num) (F64.le_fin_fin.mpr (by norm_num)) (F64.le_fin_fin.mpr (le_refl 1))
      (F64.le_fin_fin.mpr (by norm_num)) (F64.lt_fin_fin.mpr (by norm_num))⟩

/-! ## Request handler: sizes and integer range -/

/-- C17, as stated, fails for a NaN flag: with `-jitter=NaN` the duration target is
`int(math.Round(NaN))`, `-2 ^ 63` on amd64, and `time.Duration(timeJms) * time.Millisecond`
wraps around to 0. -/
theorem handler_duration_wraps :
    timeJms ⟨F64.fin 0, 0, 0, F64.nan⟩ (F64.fin 0) = -2 ^ 63 ∧
      wrapInt64 (timeJms ⟨F64.fin 0, 0, 0, F64.nan⟩ (F64.fin 0) * millisecond) = 0 ∧
      wrapInt64 (timeJms ⟨F64.fin 0, 0, 0, F64.nan⟩ (F64.fin 0) * millisecond) ≠
        timeJms ⟨F64.fin 0, 0, 0, F64.nan⟩ (F64.fin 0) * 1000000 ∧
      ∃ run, handler ⟨F64.fin 0, 0, 0, F64.nan⟩ (F64.fin 0) (F64.fin 0) (F64.fin 0) = some run ∧
        run.total = 0 ∧ run.response.targetTime = -2 ^ 63 := by
  have e : timeJms ⟨F64.fin 0, 0, 0, F64.nan⟩ (F64.fin 0) = -2 ^ 63 := by
    unfold timeJms
    rw [applyJitter_nan, clampFloat_nan]
    rfl
  have w : wrapInt64 ((-2 ^ 63 : Int) * millisecond) = 0 := by
    unfold wrapInt64 millisecond
    norm_num
  obtain ⟨r, acts, _, _, h⟩ :=
    handler_returns ⟨F64.fin 0, 0, 0, F64.nan⟩ (F64.fin 0) (F64.fin 0) (F64.fin 0)
  rw [e, w] at h
  refine ⟨e, by rw [e, w], by rw [e, w]; norm_num, _, h, rfl, rfl⟩

/-- C17, amended: for every configuration whose `cpuPercent` and `jitter` are finite float64
values and every three draws in `[0, 1)` the handler returns; when `memJ > 0` the buffer it
allocates has exactly `memJ * 1024 * 1024` bytes, at most `2 ^ 30`, and when `memJ = 0` there
is no buffer; the scheduled duration is `timeJms * 1000000` ns, at most `6 * 10 ^ 13`;
neither product wraps around in 64 bits. -/
theorem handler_sizes (c : Config) (u₁ u₂ u₃ : F64) (hj : c.jitter.IsFinite)
    (hm : IsInt64 c.memMB) (ht : IsInt64 c.timeMS)
    (h₂ : F64.fin 0 ≤ u₂ ∧ u₂ < F64.fin 1) (h₃ : F64.fin 0 ≤ u₃ ∧ u₃ < F64.fin 1) :
    ∃ run, handler c u₁ u₂ u₃ = some run ∧
      (memJ c u₂ = 0 → run.memBlock = none) ∧
      (0 < memJ c u₂ →
        ∃ m, run.memBlock = some m ∧ (m.bytes.length : Int) = memJ c u₂ * 1024 * 1024) ∧
      wrapInt64 (wrapInt64 (memJ c u₂ * 1024) * 1024) = memJ c u₂ * 1024 * 1024 ∧
      memJ c u₂ * 1024 * 1024 ≤ 2 ^ 30 ∧
      run.total = timeJms c u₃ * 1000000 ∧
      wrapInt64 (timeJms c u₃ * millisecond) = timeJms c u₃ * 1000000 ∧
      timeJms c u₃ * 1000000 ≤ 6 * 10 ^ 13 := by
  obtain ⟨hm0, hm1⟩ := memJ_mem c u₂ hm hj h₂.1 h₂.2
  obtain ⟨ht0, ht1⟩ := timeJms_mem c u₃ ht hj h₃.1 h₃.2
  obtain ⟨r, acts, hr, _, hrun⟩ := handler_returns c u₁ u₂ u₃
  obtain ⟨r', hr', hzero, hpos⟩ := allocate_returns hm1
  rw [hr] at hr'
  cases hr'
  have e1 : wrapInt64 (memJ c u₂ * 1024) = memJ c u₂ * 1024 :=
    wrapInt64_of_mem (by omega) (by omega)
  have e2 : wrapInt64 (memJ c u₂ * 1024 * 1024) = memJ c u₂ * 1024 * 1024 :=
    wrapInt64_of_mem (by omega) (by omega)
  have e3 : wrapInt64 (timeJms c u₃ * millisecond) = timeJms c u₃ * 1000000 := by
    unfold millisecond
    exact wrapInt64_of_mem (by omega) (by omega)
  refine ⟨_, hrun, fun h => hzero (by omega), hpos, ?_, by omega, e3, e3, by omega⟩
  rw [e1, e2]

theorem handler_sizes_witness :
    ((F64.fin (1 / 2)).IsFinite ∧ IsInt64 5000 ∧ IsInt64 (-7) ∧
        (F64.fin 0 ≤ F64.fin (1 / 4) ∧ F64.fin (1 / 4) < F64.fin 1)) ∧
      ∃ run, handler ⟨F64.nan, 5000, -7, F64.fin (1 / 2)⟩ (F64.fin 0) (F64.fin (1 / 4))
          (F64.fin (1 / 4)) = some run ∧
        (memJ ⟨F64.nan, 5000, -7, F64.fin (1 / 2)⟩ (F64.fin (1 / 4)) = 0 →
          run.memBlock = none) ∧
        (0 < memJ ⟨F64.nan, 5000, -7, F64.fin (1 / 2)⟩ (F64.fin (1 / 4)) →
          ∃ m, run.memBlock = some m ∧ (m.bytes.length : Int) =
            memJ ⟨F64.nan, 5000, -7, F64.fin (1 / 2)⟩ (F64.fin (1 / 4)) * 1024 * 1024) ∧
        wrapInt64 (wrapInt64
            (memJ ⟨F64.nan, 5000, -7, F64.fin (1 / 2)⟩ (F64.fin (1 / 4)) * 1024) * 1024) =
          memJ ⟨F64.nan, 5000, -7, F64.fin (1 / 2)⟩ (F64.fin (1 / 4)) * 1024 * 1024 ∧
        memJ ⟨F64.nan, 5000, -7, F64.fin (1 / 2)⟩ (F64.fin (1 / 4)) * 1024 * 1024 ≤ 2 ^ 30 ∧
        run.total = timeJms ⟨F64.nan, 5000, -7, F64.fin (1 / 2)⟩ (F64.fin (1 / 4)) * 1000000 ∧
        wrapInt64 (timeJms ⟨F64.nan, 5000, -7, F64.fin (1 / 2)⟩ (F64.fin (1 / 4)) * millisecond) =
          timeJms ⟨F64.nan, 5000, -7, F64.fin (1 / 2)⟩ (F64.fin (1 / 4)) * 1000000 ∧
        timeJms ⟨F64.nan, 5000, -7, F64.fin (1 / 2)⟩ (F64.fin (1 / 4)) * 1000000 ≤ 6 * 10 ^ 13 :=
  ⟨⟨roundF64_half, ⟨by norm_num, by norm_num⟩, ⟨by norm_num, by norm_num⟩,
      ⟨F64.le_fin_fin.mpr (by norm_num), F64.lt_fin_fin.mpr (by norm_num)⟩⟩,
    handler_sizes ⟨F64.nan, 5000, -7, F64.fin (1 / 2)⟩ (F64.fin 0) (F64.fin (1 / 4))
      (F64.fin (1 / 4)) roundF64_half ⟨by norm_num, by norm_num⟩ ⟨by norm_num, by norm_num⟩
      ⟨F64.le_fin_fin.mpr (by norm_num), F64.lt_fin_fin.mpr (by norm_num)⟩
      ⟨F64.le_fin_fin.mpr (by norm_num), F64.lt_fin_fin.mpr (by norm_num)⟩⟩

end DummyLoad
